import Mathlib

/-!
Verification of the EVM ABI codec in `precompiles/utils/src/data.rs`.

The Rust source is shallowly embedded: byte slices become `List Nat` (each entry a
byte value), `usize` arithmetic is `Nat` with explicit `2 ^ 64` checks at the points
the source performs checked arithmetic or `try_into`, fallible operations return
`Except String` carrying the revert reason string, and the `EvmData` trait dispatch
is embedded as recursion over a universe `EvmType` of the types the source
implements the trait for.
-/

set_option maxHeartbeats 1000000

namespace AbiData

/-- Modulus of the machine word: `usize` on the 64-bit targets the runtime builds for. -/
def USIZE : Nat := 2 ^ 64

/-- Big-endian bytes of width `w` of `n` (the low `w` bytes, most significant first).
Models `to_be_bytes` and the written range of `U256::to_big_endian`. -/
def beBytes : Nat → Nat → List Nat
  | 0, _ => []
  | w + 1, n => (n / 256 ^ w) % 256 :: beBytes w n

/-- Big-endian value of a byte list; models `U256::from_big_endian` / `from_be_bytes`. -/
def beVal (l : List Nat) : Nat := l.foldl (fun acc b => acc * 256 + b) 0

/-- One 32-byte big-endian word, as produced by `U256::to_big_endian`. -/
def u256be (n : Nat) : List Nat := beBytes 32 n

/-- Wrapper around an EVM input slice (`EvmDataReader` in `data.rs`):
the borrowed input and the byte cursor. -/
structure EvmDataReader where
  input : List Nat
  cursor : Nat
deriving DecidableEq

/-- Models `slice.get(start..stop)`: `some` exactly when the range lies inside the slice. -/
def sliceGet (l : List Nat) (start stop : Nat) : Option (List Nat) :=
  if start ≤ stop ∧ stop ≤ l.length then some ((l.drop start).take (stop - start)) else none

/-- Models `EvmDataReader::move_cursor`: `checked_add` on the cursor, returning the range
from the old cursor to the new one.  On the overflow error the cursor is unchanged;
otherwise the cursor is advanced before any bounds check on the input happens. -/
def move_cursor (r : EvmDataReader) (len : Nat) :
    Except String ((Nat × Nat) × EvmDataReader) :=
  if r.cursor + len < USIZE then
    .ok ((r.cursor, r.cursor + len), { r with cursor := r.cursor + len })
  else
    .error "data reading cursor overflow"

/-- The shared shape of the bounded reads in `data.rs`: `move_cursor` followed by
`self.input.get(range)`, with a per-call-site reason string for the bounds failure. -/
def readBytesAs (r : EvmDataReader) (len : Nat) (msg : String) :
    Except String (List Nat) × EvmDataReader :=
  match move_cursor r len with
  | .error e => (.error e, r)
  | .ok ((a, b), r2) =>
    match sliceGet r.input a b with
    | none => (.error msg, r2)
    | some d => (.ok d, r2)

/-- Models `EvmDataReader::read_raw_bytes`. -/
def read_raw_bytes (r : EvmDataReader) (len : Nat) :
    Except String (List Nat) × EvmDataReader :=
  readBytesAs r len "tried to parse raw bytes out of bounds"

/-- Models `<U256 as EvmData>::read`. -/
def readU256 (r : EvmDataReader) : Except String Nat × EvmDataReader :=
  match readBytesAs r 32 "tried to parse U256 out of bounds" with
  | (.error e, r2) => (.error e, r2)
  | (.ok d, r2) => (.ok (beVal d), r2)

/-- Models `EvmDataReader::read_pointer`: read a `U256` word, convert it to `usize`,
reject offsets at or past the end of the current input, and rebase a fresh reader
at the offset.  The cursor of `r` is advanced by the inner `U256` read even when the
offset checks fail. -/
def read_pointer (r : EvmDataReader) : Except String EvmDataReader × EvmDataReader :=
  match readU256 r with
  | (.error _, r2) => (.error "tried to parse array offset out of bounds", r2)
  | (.ok off, r2) =>
    if off ≥ USIZE then (.error "array offset is too large", r2)
    else if off ≥ r.input.length then (.error "pointer points out of bounds", r2)
    else (.ok ⟨r.input.drop off, 0⟩, r2)

/-- Models `EvmDataReader::read_till_end`.  The source computes
`self.input.len() - self.cursor` in `usize` with no underflow check; the
`cursor > input.length` branch models the overflow panic of that subtraction. -/
def read_till_end (r : EvmDataReader) : Except String (List Nat) × EvmDataReader :=
  if r.cursor ≤ r.input.length then
    readBytesAs r (r.input.length - r.cursor) "tried to parse raw bytes out of bounds"
  else
    (.error "attempt to subtract with overflow", r)

/-- Models `EvmDataReader::read_selector`.  The user enumeration
`T : num_enum::TryFromPrimitive<Primitive = u32>` is modelled by a partial map from
the big-endian value of the first four bytes. -/
def read_selector {σ : Type} (enum : Nat → Option σ) (input : List Nat) :
    Except String σ :=
  if input.length < 4 then .error "tried to parse selector out of bounds"
  else
    match enum (beVal (input.take 4)) with
    | some s => .ok s
    | none => .error "unknown selector"

/-- Models `EvmDataReader::new_skip_selector`. -/
def new_skip_selector (input : List Nat) : Except String EvmDataReader :=
  if input.length < 4 then .error "input is too short"
  else .ok ⟨input.drop 4, 0⟩

/-- One deferred-pointer entry of the writer (`OffsetDatum` in `data.rs`). -/
structure OffsetDatum where
  offset_position : Nat
  data : List Nat
  offset_shift : Nat
deriving DecidableEq

/-- The output builder (`EvmDataWriter` in `data.rs`). -/
structure EvmDataWriter where
  data : List Nat
  offset_data : List OffsetDatum
  selector : Option Nat
deriving DecidableEq

/-- Models `EvmDataWriter::new`. -/
def EvmDataWriter.new : EvmDataWriter := ⟨[], [], none⟩

/-- Models `EvmDataWriter::new_with_selector`. -/
def new_with_selector (s : Nat) : EvmDataWriter := ⟨[], [], some s⟩

/-- Models `U256::to_big_endian(&mut output[pos..pos + 32])`: overwrite the 32 bytes
at `pos` with the given word. -/
def writeWordAt (output : List Nat) (pos : Nat) (word : List Nat) : List Nat :=
  output.take pos ++ word ++ output.drop (pos + 32)

/-- Models `EvmDataWriter::bake_offsets`: for each pending entry in order, overwrite
its placeholder word with `output.len() - offset_shift` and append its payload.
The subtraction is `usize` subtraction; every state the writer itself builds has
`offset_shift ≤ output.len()`, and `Nat` subtraction agrees there. -/
def bake_offsets (output : List Nat) : List OffsetDatum → List Nat
  | [] => output
  | od :: rest =>
    bake_offsets
      (writeWordAt output od.offset_position (u256be (output.length - od.offset_shift))
        ++ od.data) rest

/-- Models `EvmDataWriter::build`. -/
def EvmDataWriter.build (w : EvmDataWriter) : List Nat :=
  let d := bake_offsets w.data w.offset_data
  match w.selector with
  | some s => beBytes 4 s ++ d
  | none => d

/-- Models `EvmDataWriter::write_raw_bytes`. -/
def write_raw_bytes (w : EvmDataWriter) (v : List Nat) : EvmDataWriter :=
  { w with data := w.data ++ v }

/-- Models `EvmDataWriter::write_pointer`: append a 32-byte `0xff` placeholder word and
record the pending payload at the old end of `data` with `offset_shift = 0`. -/
def write_pointer (w : EvmDataWriter) (payload : List Nat) : EvmDataWriter :=
  { w with
    data := w.data ++ List.replicate 32 255,
    offset_data := w.offset_data ++ [⟨w.data.length, payload, 0⟩] }

/-- The universe of semantic types `data.rs` implements `EvmData` for.
`uintW w` covers the `impl_evmdata_for_uints!` instances (`w` is the byte width:
2, 4, 8, 16); `u8` and `U256` have bespoke impls in the source. -/
inductive EvmType where
  | u8
  | uintW (w : Nat)
  | u256
  | boolT
  | address
  | h256
  | bytes
  | vec (t : EvmType)
  | boundedVec (t : EvmType) (n : Nat)
  | tuple (ts : List EvmType)

/-- Values of the embedded types.  Numbers carry their `Nat` value, addresses their
20 bytes, `H256` its 32 bytes, `bytes` its raw buffer, arrays and tuples their
component values. -/
inductive EvmValue where
  | num (v : Nat)
  | vbool (b : Bool)
  | vaddress (a : List Nat)
  | vh256 (h : List Nat)
  | vbytes (b : List Nat)
  | varray (vs : List EvmValue)
  | vtuple (vs : List EvmValue)

mutual

/-- Models `EvmData::has_static_size` for each impl in `data.rs`. -/
def has_static_size : EvmType → Bool
  | .u8 => true
  | .uintW _ => true
  | .u256 => true
  | .boolT => true
  | .address => true
  | .h256 => true
  | .bytes => false
  | .vec _ => false
  | .boundedVec _ _ => false
  | .tuple ts => allStatic ts

/-- The conjunction `for_tuples!(#( Tuple::has_static_size() )&*)` of the tuple impl. -/
def allStatic : List EvmType → Bool
  | [] => true
  | t :: ts => has_static_size t && allStatic ts

end

/-- Models `EvmData::is_explicit_tuple`.  The trait declares it with default body
`false`, and no impl in `data.rs` overrides it — in particular the tuple impl
generated by `#[impl_for_tuples(1, 18)]` only provides `has_static_size`, `read`
and `write` — so it is `false` for every type. -/
def is_explicit_tuple (_ : EvmType) : Bool := false

/-- `core::any::type_name` output for the macro-generated uint impls. -/
def uintName (w : Nat) : String := "u" ++ toString (8 * w)

mutual

/-- Models `EvmData::read` for each impl in `data.rs`, dispatched on the type.
Returns the decoded value (or the revert reason) together with the state of the
(borrowed, mutated) reader. -/
def readValue (t : EvmType) (r : EvmDataReader) :
    Except String EvmValue × EvmDataReader :=
  match t with
  | .u8 =>
    match readBytesAs r 32 "tried to parse u64 out of bounds" with
    | (.error e, r2) => (.error e, r2)
    | (.ok d, r2) => (.ok (.num (d.getD 31 0)), r2)
  | .uintW w =>
    match readBytesAs r 32 ("tried to parse " ++ uintName w ++ " out of bounds") with
    | (.error e, r2) => (.error e, r2)
    | (.ok d, r2) => (.ok (.num (beVal (d.drop (32 - w)))), r2)
  | .u256 =>
    match readU256 r with
    | (.error e, r2) => (.error e, r2)
    | (.ok n, r2) => (.ok (.num n), r2)
  | .boolT =>
    match readBytesAs r 32 "tried to parse H256 out of bounds" with
    | (.error _, r2) => (.error "tried to parse bool out of bounds", r2)
    | (.ok d, r2) => (.ok (.vbool (!(d.all (fun x => x == 0)))), r2)
  | .address =>
    match readBytesAs r 32 "tried to parse H160 out of bounds" with
    | (.error e, r2) => (.error e, r2)
    | (.ok d, r2) => (.ok (.vaddress ((d.drop 12).take 20)), r2)
  | .h256 =>
    match readBytesAs r 32 "tried to parse H256 out of bounds" with
    | (.error e, r2) => (.error e, r2)
    | (.ok d, r2) => (.ok (.vh256 d), r2)
  | .bytes =>
    match read_pointer r with
    | (.error e, r2) => (.error e, r2)
    | (.ok inner, r2) =>
      match readU256 inner with
      | (.error _, _) => (.error "tried to parse bytes/string length out of bounds", r2)
      | (.ok len, inner2) =>
        if len ≥ USIZE then (.error "bytes/string length is too large", r2)
        else
          match move_cursor inner2 len with
          | .error e => (.error e, r2)
          | .ok ((a, b), inner3) =>
            match sliceGet inner3.input a b with
            | none => (.error "tried to parse bytes/string out of bounds", r2)
            | some d => (.ok (.vbytes d), r2)
  | .vec t =>
    match read_pointer r with
    | (.error e, r2) => (.error e, r2)
    | (.ok inner, r2) =>
      match readU256 inner with
      | (.error _, _) => (.error "tried to parse array length out of bounds", r2)
      | (.ok n, inner2) =>
        if n ≥ USIZE then (.error "array length is too large", r2)
        else if 32 ≤ inner2.input.length then
          match readItems t n ⟨inner2.input.drop 32, 0⟩ with
          | (.error e, _) => (.error e, r2)
          | (.ok vs, _) => (.ok (.varray vs), r2)
        else (.error "try to read array items out of bound", r2)
  | .boundedVec t bound =>
    match read_pointer r with
    | (.error e, r2) => (.error e, r2)
    | (.ok inner, r2) =>
      match readU256 inner with
      | (.error _, _) => (.error "out of bounds: length of array", r2)
      | (.ok n, inner2) =>
        if n ≥ USIZE then
          (.error "value too large : Array has more than max items allowed", r2)
        else if n > bound then
          (.error "value too large : Array has more than max items allowed", r2)
        else if 32 ≤ inner2.input.length then
          match readItems t n ⟨inner2.input.drop 32, 0⟩ with
          | (.error e, _) => (.error e, r2)
          | (.ok vs, _) => (.ok (.varray vs), r2)
        else (.error "read out of bounds: array content", r2)
  | .tuple ts =>
    if allStatic ts then
      match readTupleSeq ts r with
      | (.error e, r2) => (.error e, r2)
      | (.ok vs, r2) => (.ok (.vtuple vs), r2)
    else
      match read_pointer r with
      | (.error e, r2) => (.error e, r2)
      | (.ok inner, r2) =>
        match readTupleSeq ts inner with
        | (.error e, _) => (.error e, r2)
        | (.ok vs, _) => (.ok (.vtuple vs), r2)
termination_by (sizeOf t, 0)

/-- The element loop of `Vec::read` / `BoundedVec::read`: read `n` values of type `t`
from the item reader in sequence. -/
def readItems (t : EvmType) (n : Nat) (r : EvmDataReader) :
    Except String (List EvmValue) × EvmDataReader :=
  match n with
  | 0 => (.ok [], r)
  | n + 1 =>
    match readValue t r with
    | (.error e, r2) => (.error e, r2)
    | (.ok v, r2) =>
      match readItems t n r2 with
      | (.error e, r3) => (.error e, r3)
      | (.ok vs, r3) => (.ok (v :: vs), r3)
termination_by (sizeOf t, n + 1)

/-- The component sequence of the tuple impl's `read`: read each component in
declaration order from the same reader. -/
def readTupleSeq (ts : List EvmType) (r : EvmDataReader) :
    Except String (List EvmValue) × EvmDataReader :=
  match ts with
  | [] => (.ok [], r)
  | t :: rest =>
    match readValue t r with
    | (.error e, r2) => (.error e, r2)
    | (.ok v, r2) =>
      match readTupleSeq rest r2 with
      | (.error e, r3) => (.error e, r3)
      | (.ok vs, r3) => (.ok (v :: vs), r3)
termination_by (sizeOf ts, 0)

end

mutual

/-- Models `EvmData::write` for each impl in `data.rs`, dispatched on the type.
A type/value mismatch (impossible in the typed Rust source) leaves the writer
unchanged. -/
def writeValue (t : EvmType) (v : EvmValue) (w : EvmDataWriter) : EvmDataWriter :=
  match t, v with
  | .u8, .num n => write_raw_bytes w (List.replicate 31 0 ++ beBytes 1 n)
  | .uintW wd, .num n => write_raw_bytes w (List.replicate (32 - wd) 0 ++ beBytes wd n)
  | .u256, .num n => write_raw_bytes w (u256be n)
  | .boolT, .vbool b => write_raw_bytes w (List.replicate 31 0 ++ [if b then 1 else 0])
  | .address, .vaddress a => write_raw_bytes w (List.replicate 12 0 ++ a)
  | .h256, .vh256 h => write_raw_bytes w h
  | .bytes, .vbytes b =>
    let len := b.length
    let chunks := len / 32
    let padded := if len % 32 == 0 then chunks * 32 else (chunks + 1) * 32
    let value := b ++ List.replicate (padded - len) 0
    write_pointer w
      (EvmDataWriter.build
        (write_raw_bytes (write_raw_bytes EvmDataWriter.new (u256be len)) value))
  | .vec t, .varray vs =>
    let inner := writeItems t vs (write_raw_bytes EvmDataWriter.new (u256be vs.length))
    write_pointer w inner.build
  | .boundedVec t _, .varray vs =>
    let inner := writeItems t vs (write_raw_bytes EvmDataWriter.new (u256be vs.length))
    write_pointer w inner.build
  | .tuple ts, .vtuple vs =>
    if allStatic ts then writeTupleSeq ts vs w
    else write_pointer w (writeTupleSeq ts vs EvmDataWriter.new).build
  | _, _ => w
termination_by (sizeOf t, 0)

/-- The element loop of `Vec::write` / `BoundedVec::write` (the two bodies in the
source are identical): serialize each element with a fresh writer, splice its head
bytes, and relocate its pending entries by the splice position and a 32-byte
length-word shift. -/
def writeItems (t : EvmType) (vs : List EvmValue) (inner : EvmDataWriter) :
    EvmDataWriter :=
  match vs with
  | [] => inner
  | v :: rest =>
    let shift := inner.data.length
    let item := writeValue t v EvmDataWriter.new
    let moved := item.offset_data.map (fun od =>
      { od with
        offset_shift := od.offset_shift + 32,
        offset_position := od.offset_position + shift })
    writeItems t rest
      { inner with
        data := inner.data ++ item.data,
        offset_data := inner.offset_data ++ moved }
termination_by (sizeOf t, vs.length + 1)

/-- The component sequence of the tuple impl's `write`: write each component in
declaration order into the same writer. -/
def writeTupleSeq (ts : List EvmType) (vs : List EvmValue) (w : EvmDataWriter) :
    EvmDataWriter :=
  match ts, vs with
  | t :: rest, v :: vrest => writeTupleSeq rest vrest (writeValue t v w)
  | _, _ => w
termination_by (sizeOf ts, 0)

end

/-- Models `encode`: full ABI encoding of one value through a fresh writer. -/
def encode (t : EvmType) (v : EvmValue) : List Nat :=
  (writeValue t v EvmDataWriter.new).build

/-- Models `encode_arguments` (also exported as `encode_return_value` and
`encode_event_data`): strip the leading word iff the type is an explicit dynamic
tuple. -/
def encode_arguments (t : EvmType) (v : EvmValue) : List Nat :=
  let output := encode t v
  if is_explicit_tuple t && !has_static_size t then output.drop 32 else output

end AbiData

namespace AbiData

mutual

/-- Well-formedness of a value at a type: exactly the constraints the Rust types
impose on the corresponding values (`u8 < 2^8`, addresses are 20 bytes, lengths fit
`usize`, tuples have arity 1..=18 and matching component lists, a `BoundedVec`
value holds at most its bound). -/
def wfB : EvmType → EvmValue → Bool
  | .u8, .num n => decide (n < 256)
  | .uintW w, .num n =>
    (w == 2 || w == 4 || w == 8 || w == 16) && decide (n < 256 ^ w)
  | .u256, .num n => decide (n < 2 ^ 256)
  | .boolT, .vbool _ => true
  | .address, .vaddress a => a.length == 20 && a.all (· < 256)
  | .h256, .vh256 h => h.length == 32 && h.all (· < 256)
  | .bytes, .vbytes b => decide (b.length < USIZE) && b.all (· < 256)
  | .vec t, .varray vs => decide (vs.length < USIZE) && wfList t vs
  | .boundedVec t n, .varray vs =>
    decide (vs.length ≤ n) && decide (vs.length < USIZE) && wfList t vs
  | .tuple ts, .vtuple vs =>
    decide (1 ≤ ts.length) && decide (ts.length ≤ 18) && wfPairs ts vs
  | _, _ => false

/-- All elements of a homogeneous sequence are well-formed. -/
def wfList (t : EvmType) : List EvmValue → Bool
  | [] => true
  | v :: vs => wfB t v && wfList t vs

/-- All components of a tuple are well-formed at their component types. -/
def wfPairs : List EvmType → List EvmValue → Bool
  | [], [] => true
  | t :: ts, v :: vs => wfB t v && wfPairs ts vs
  | _, _ => false

end

mutual

/-- Byte length of the head (the in-container slot) of a type: 32 for every
primitive and for every dynamic type (one pointer word), the component sum for an
all-static tuple. -/
def headLen : EvmType → Nat
  | .tuple ts => if allStatic ts then headLenList ts else 32
  | _ => 32

/-- Sum of the head lengths of a component list. -/
def headLenList : List EvmType → Nat
  | [] => 0
  | t :: ts => headLen t + headLenList ts

end

/-- The bounds-failure reason strings of the decoder (spec §7). -/
def boundsErrors : List String :=
  ["tried to parse selector out of bounds",
   "tried to parse u64 out of bounds",
   "tried to parse u16 out of bounds",
   "tried to parse u32 out of bounds",
   "tried to parse u128 out of bounds",
   "tried to parse U256 out of bounds",
   "tried to parse H256 out of bounds",
   "tried to parse H160 out of bounds",
   "tried to parse bool out of bounds",
   "tried to parse raw bytes out of bounds",
   "tried to parse bytes/string out of bounds",
   "tried to parse array offset out of bounds",
   "array offset is too large",
   "pointer points out of bounds",
   "tried to parse array length out of bounds",
   "array length is too large",
   "tried to parse bytes/string length out of bounds",
   "bytes/string length is too large",
   "data reading cursor overflow"]

end AbiData

namespace AbiData

/-! ### Write-side descriptors (derived from `writeValue` on a fresh writer) -/

/-- The head bytes a single `write` appends to a fresh writer. -/
def headBytes (t : EvmType) (v : EvmValue) : List Nat :=
  (writeValue t v EvmDataWriter.new).data

/-- The pending entries a single `write` records on a fresh writer. -/
def pendList (t : EvmType) (v : EvmValue) : List OffsetDatum :=
  (writeValue t v EvmDataWriter.new).offset_data

/-- The deferred payload of a dynamic value's write (its single pending entry). -/
def payloadOf (t : EvmType) (v : EvmValue) : List Nat :=
  ((pendList t v).headD ⟨0, [], 0⟩).data

/-- Closed form of the head bytes `writeTupleSeq` appends. -/
def tupleHeads : List EvmType → List EvmValue → List Nat
  | t :: ts, v :: vs => headBytes t v ++ tupleHeads ts vs
  | _, _ => []

/-- Closed form of the pending entries `writeTupleSeq` records, positions rebased at
`base`. -/
def tuplePends (base : Nat) : List EvmType → List EvmValue → List OffsetDatum
  | t :: ts, v :: vs =>
    (pendList t v).map (fun od => { od with offset_position := od.offset_position + base })
      ++ tuplePends (base + (headBytes t v).length) ts vs
  | _, _ => []

/-- Closed form of the head bytes `writeItems` appends. -/
def itemsHeads (t : EvmType) : List EvmValue → List Nat
  | [] => []
  | v :: vs => headBytes t v ++ itemsHeads t vs

/-- Closed form of the pending entries `writeItems` records: item entries are rebased
at the splice position and receive the extra 32-byte length-word shift. -/
def itemsPends (t : EvmType) : Nat → List EvmValue → List OffsetDatum
  | _, [] => []
  | base, v :: vs =>
    (pendList t v).map (fun od =>
      { od with offset_position := od.offset_position + base,
                offset_shift := od.offset_shift + 32 })
      ++ itemsPends t (base + (headBytes t v).length) vs

/-- One head slot of a container body: literal static head bytes, or a deferred
pointer to a payload. -/
inductive Slot where
  | stat (h : List Nat)
  | dyn (payload : List Nat)

/-- The pre-bake data of a slot sequence: static heads verbatim, a 32-byte `0xff`
placeholder per dynamic slot. -/
def slotData : List Slot → List Nat
  | [] => []
  | .stat h :: rest => h ++ slotData rest
  | .dyn _ :: rest => List.replicate 32 255 ++ slotData rest

/-- The pending entries of a slot sequence, at shift `s`, positions starting at `pos`. -/
def slotOds (s : Nat) : Nat → List Slot → List OffsetDatum
  | _, [] => []
  | pos, .stat h :: rest => slotOds s (pos + h.length) rest
  | pos, .dyn p :: rest => ⟨pos, p, s⟩ :: slotOds s (pos + 32) rest

/-- The baked head bytes of a slot sequence when the first payload lands at offset
`free`. -/
def slotHeads (free : Nat) : List Slot → List Nat
  | [] => []
  | .stat h :: rest => h ++ slotHeads free rest
  | .dyn p :: rest => u256be free ++ slotHeads (free + p.length) rest

/-- The concatenated payloads of a slot sequence, in order. -/
def slotTails : List Slot → List Nat
  | [] => []
  | .stat _ :: rest => slotTails rest
  | .dyn p :: rest => p ++ slotTails rest

/-- The slot a value contributes to its container's head area. -/
def slotOfVal (t : EvmType) (v : EvmValue) : Slot :=
  if has_static_size t then .stat (headBytes t v) else .dyn (payloadOf t v)

/-- The slots of a homogeneous sequence. -/
def slotsOfItems (t : EvmType) (vs : List EvmValue) : List Slot := vs.map (slotOfVal t)

/-- The slots of a tuple's components. -/
def slotsOfTuple : List EvmType → List EvmValue → List Slot
  | t :: ts, v :: vs => slotOfVal t v :: slotsOfTuple ts vs
  | _, _ => []

/-! ### The wire-layout predicates the decoder inverts -/

mutual

/-- The buffer `B` holds, at byte cursor `c`, a valid head for the value `v` of type
`t`: for a static type the head bytes themselves (for a static tuple, component by
component), for a dynamic type a pointer word whose target (relative to the start of
`B`, as `read_pointer` rebases) carries the value's payload. -/
def HeadAt (B : List Nat) (c : Nat) (t : EvmType) (v : EvmValue) : Prop :=
  match t, v with
  | .u8, v => c + 32 ≤ B.length ∧ (B.drop c).take 32 = headBytes .u8 v
  | .uintW w, v => c + 32 ≤ B.length ∧ (B.drop c).take 32 = headBytes (.uintW w) v
  | .u256, v => c + 32 ≤ B.length ∧ (B.drop c).take 32 = headBytes .u256 v
  | .boolT, v => c + 32 ≤ B.length ∧ (B.drop c).take 32 = headBytes .boolT v
  | .address, v => c + 32 ≤ B.length ∧ (B.drop c).take 32 = headBytes .address v
  | .h256, v => c + 32 ≤ B.length ∧ (B.drop c).take 32 = headBytes .h256 v
  | .tuple ts, .vtuple vs =>
    if allStatic ts then TupleAt B c ts vs
    else ∃ p, c + 32 ≤ B.length ∧ (B.drop c).take 32 = u256be p ∧ p < USIZE ∧
      p < B.length ∧ PayloadBody (B.drop p) (.tuple ts) (.vtuple vs)
  | .tuple _, _ => False
  | .bytes, v =>
    ∃ p, c + 32 ≤ B.length ∧ (B.drop c).take 32 = u256be p ∧ p < USIZE ∧
      p < B.length ∧ PayloadBody (B.drop p) .bytes v
  | .vec t, v =>
    ∃ p, c + 32 ≤ B.length ∧ (B.drop c).take 32 = u256be p ∧ p < USIZE ∧
      p < B.length ∧ PayloadBody (B.drop p) (.vec t) v
  | .boundedVec t n, v =>
    ∃ p, c + 32 ≤ B.length ∧ (B.drop c).take 32 = u256be p ∧ p < USIZE ∧
      p < B.length ∧ PayloadBody (B.drop p) (.boundedVec t n) v
termination_by (sizeOf t, 1)

/-- The buffer `D` (a pointer target, cursor base 0) begins with the payload of the
dynamic value `v` of type `t`. -/
def PayloadBody (D : List Nat) (t : EvmType) (v : EvmValue) : Prop :=
  match t, v with
  | .bytes, .vbytes b => D.take (32 + b.length) = u256be b.length ++ b
  | .vec t, .varray vs =>
    32 ≤ D.length ∧ D.take 32 = u256be vs.length ∧ ItemsAt (D.drop 32) 0 t vs
  | .boundedVec t _, .varray vs =>
    32 ≤ D.length ∧ D.take 32 = u256be vs.length ∧ ItemsAt (D.drop 32) 0 t vs
  | .tuple ts, .vtuple vs => TupleAt D 0 ts vs
  | _, _ => False
termination_by (sizeOf t, 0)

/-- Every element of the sequence has its head at consecutive cursors of the array
body `E`. -/
def ItemsAt (E : List Nat) (c : Nat) (t : EvmType) (vs : List EvmValue) : Prop :=
  match vs with
  | [] => True
  | v :: rest => HeadAt E c t v ∧ ItemsAt E (c + headLen t) t rest
termination_by (sizeOf t, 2 + vs.length)

/-- Every component of the tuple has its head at consecutive cursors of `D`. -/
def TupleAt (D : List Nat) (c : Nat) (ts : List EvmType) (vs : List EvmValue) : Prop :=
  match ts, vs with
  | t :: ts, v :: vs => HeadAt D c t v ∧ TupleAt D (c + headLen t) ts vs
  | [], [] => True
  | _, _ => False
termination_by (sizeOf ts, 0)

end

end AbiData

namespace AbiData

/-! ### Basic facts about the word primitives -/

theorem beBytes_length (w n : Nat) : (beBytes w n).length = w := by
  induction w generalizing n with
  | zero => simp [beBytes]
  | succ w ih => simp [beBytes, ih]

theorem u256be_length (n : Nat) : (u256be n).length = 32 := beBytes_length 32 n

theorem beVal_foldl (a : Nat) (l : List Nat) :
    l.foldl (fun acc b => acc * 256 + b) a = a * 256 ^ l.length + beVal l := by
  induction l generalizing a with
  | nil => simp [beVal]
  | cons x xs ih =>
    simp only [List.foldl_cons, beVal, List.length_cons]
    rw [ih (a * 256 + x), ih (0 * 256 + x)]
    ring

theorem beVal_cons (x : Nat) (l : List Nat) :
    beVal (x :: l) = x * 256 ^ l.length + beVal l := by
  rw [beVal, List.foldl_cons, beVal_foldl]
  ring_nf

theorem beVal_append (l1 l2 : List Nat) :
    beVal (l1 ++ l2) = beVal l1 * 256 ^ l2.length + beVal l2 := by
  rw [beVal, List.foldl_append, beVal_foldl]
  rfl

theorem beVal_beBytes (w n : Nat) : beVal (beBytes w n) = n % 256 ^ w := by
  induction w with
  | zero => simp [beBytes, beVal, Nat.mod_one]
  | succ w ih =>
    rw [beBytes, beVal_cons, beBytes_length, ih, pow_succ, Nat.mod_mul]
    ring

theorem beVal_u256be (n : Nat) (h : n < 2 ^ 256) : beVal (u256be n) = n := by
  rw [u256be, beVal_beBytes]
  exact Nat.mod_eq_of_lt (by norm_num at h ⊢; omega)

theorem beBytes_bytes_lt (w n : Nat) : ∀ x ∈ beBytes w n, x < 256 := by
  induction w generalizing n with
  | zero => simp [beBytes]
  | succ w ih =>
    intro x hx
    rw [beBytes] at hx
    rcases List.mem_cons.mp hx with h | h
    · subst h; exact Nat.mod_lt _ (by norm_num)
    · exact ih n x h

/-! ### Characterizations of the reader primitives -/

theorem readBytesAs_eq (r : EvmDataReader) (len : Nat) (msg : String) :
    readBytesAs r len msg =
      if r.cursor + len < USIZE then
        (if r.cursor + len ≤ r.input.length then
          (.ok ((r.input.drop r.cursor).take len), ⟨r.input, r.cursor + len⟩)
        else (.error msg, ⟨r.input, r.cursor + len⟩))
      else (.error "data reading cursor overflow", r) := by
  rw [readBytesAs, move_cursor]
  by_cases hc : r.cursor + len < USIZE
  · rw [if_pos hc, if_pos hc]
    show (match sliceGet r.input r.cursor (r.cursor + len) with
      | none => (Except.error msg, ({ r with cursor := r.cursor + len } : EvmDataReader))
      | some d => (Except.ok d, ({ r with cursor := r.cursor + len } : EvmDataReader))) = _
    rw [sliceGet]
    by_cases hs : r.cursor + len ≤ r.input.length
    · rw [if_pos ⟨Nat.le_add_right _ _, hs⟩, if_pos hs]
      simp
    · rw [if_neg (fun hh => hs hh.2), if_neg hs]
  · rw [if_neg hc, if_neg hc]

theorem readU256_eq (r : EvmDataReader) :
    readU256 r =
      if r.cursor + 32 < USIZE then
        (if r.cursor + 32 ≤ r.input.length then
          (.ok (beVal ((r.input.drop r.cursor).take 32)), ⟨r.input, r.cursor + 32⟩)
        else (.error "tried to parse U256 out of bounds", ⟨r.input, r.cursor + 32⟩))
      else (.error "data reading cursor overflow", r) := by
  rw [readU256, readBytesAs_eq]
  by_cases hc : r.cursor + 32 < USIZE
  · rw [if_pos hc, if_pos hc]
    by_cases hs : r.cursor + 32 ≤ r.input.length
    · rw [if_pos hs, if_pos hs]
    · rw [if_neg hs, if_neg hs]
  · rw [if_neg hc, if_neg hc]

theorem read_pointer_eq (r : EvmDataReader) :
    read_pointer r =
      if r.cursor + 32 < USIZE then
        (if r.cursor + 32 ≤ r.input.length then
          (if beVal ((r.input.drop r.cursor).take 32) ≥ USIZE then
            (.error "array offset is too large", ⟨r.input, r.cursor + 32⟩)
          else if beVal ((r.input.drop r.cursor).take 32) ≥ r.input.length then
            (.error "pointer points out of bounds", ⟨r.input, r.cursor + 32⟩)
          else
            (.ok ⟨r.input.drop (beVal ((r.input.drop r.cursor).take 32)), 0⟩,
              ⟨r.input, r.cursor + 32⟩))
        else (.error "tried to parse array offset out of bounds", ⟨r.input, r.cursor + 32⟩))
      else (.error "tried to parse array offset out of bounds", r) := by
  rw [read_pointer, readU256_eq]
  by_cases hc : r.cursor + 32 < USIZE
  · rw [if_pos hc, if_pos hc]
    by_cases hs : r.cursor + 32 ≤ r.input.length
    · rw [if_pos hs, if_pos hs]
    · rw [if_neg hs, if_neg hs]
  · rw [if_neg hc, if_neg hc]

end AbiData

namespace AbiData

/-! ### C1 -/

/-- C1: the claim says `is_explicit_tuple()` is `true` for every tuple arity 1..=18 and
that `encode_arguments` therefore strips the leading pointer word of a dynamic tuple.
In the source the trait default `false` is never overridden — the tuple impl generated
by `impl_for_tuples` only provides `has_static_size`, `read` and `write` — so
`is_explicit_tuple` is `false` for every type and `encode_arguments` always returns
`encode`'s output unchanged, pointer word included. -/
theorem c1_is_explicit_tuple_false_so_no_strip :
    (∀ ts : List EvmType, is_explicit_tuple (.tuple ts) = false) ∧
    (∀ (t : EvmType) (v : EvmValue), encode_arguments t v = encode t v) := by
  refine ⟨fun ts => rfl, fun t v => ?_⟩
  simp [encode_arguments, is_explicit_tuple]

/-! ### C9 -/

/-- C9: the claim says `encode_arguments` of `(U256(5), bytes("ok"))` at `(U256, bytes)`
is exactly 128 bytes beginning with the word `5`.  Evaluating the code: the output
keeps the leading pointer word `0x20` and is 160 bytes. -/
theorem c9_encode_arguments_tuple_eval :
    encode_arguments (.tuple [.u256, .bytes]) (.vtuple [.num 5, .vbytes [111, 107]]) =
      u256be 32 ++ u256be 5 ++ u256be 64 ++ u256be 2 ++ (111 :: 107 :: List.replicate 30 0) ∧
    (encode_arguments (.tuple [.u256, .bytes]) (.vtuple [.num 5, .vbytes [111, 107]])).length
      = 160 := by
  have h : encode_arguments (.tuple [.u256, .bytes]) (.vtuple [.num 5, .vbytes [111, 107]]) =
      u256be 32 ++ u256be 5 ++ u256be 64 ++ u256be 2 ++ (111 :: 107 :: List.replicate 30 0) := by
    simp [encode_arguments, encode, is_explicit_tuple, writeValue, writeTupleSeq, allStatic,
      has_static_size, write_raw_bytes, write_pointer, EvmDataWriter.new, EvmDataWriter.build,
      bake_offsets, writeWordAt, u256be, beBytes]
  refine ⟨h, ?_⟩
  rw [h]
  simp [u256be_length]

/-! ### C2 -/

/-- C2 counterexample: a failed word read does not leave the reader unchanged — on the
empty input, reading a `U256` returns an error with the cursor advanced to 32, past
`input.len() = 0`, violating both the claimed invariant and the claimed absence of
side effects on the error path. -/
theorem c2_cex_failed_read_moves_cursor :
    (readValue .u256 ⟨[], 0⟩).1 = .error "tried to parse U256 out of bounds" ∧
    (readValue .u256 ⟨[], 0⟩).2 = ⟨[], 32⟩ ∧
    ¬((readValue .u256 ⟨[], 0⟩).2.cursor ≤ (EvmDataReader.mk [] 0).input.length) := by
  refine ⟨?_, ?_, ?_⟩ <;>
    simp [readValue, readU256, readBytesAs, move_cursor, sliceGet, USIZE]

/-- C2 amended: a successful bounded read advances the cursor by exactly the requested
length and re-establishes `cursor ≤ input.len()`; a failed bounded read returns an
error but (except for the cursor-overflow failure, which leaves the reader unchanged)
still advances the cursor past the requested range, so after a failed read the
invariant `cursor ≤ input.len()` can be violated. -/
theorem c2_amended_bounded_reads :
    ∀ (r : EvmDataReader) (len : Nat) (msg : String),
      (∀ d r2, readBytesAs r len msg = (.ok d, r2) →
          r2.input = r.input ∧ r2.cursor = r.cursor + len ∧
          r2.cursor ≤ r.input.length ∧ d.length = len) ∧
      (∀ e r2, readBytesAs r len msg = (.error e, r2) →
          r2.input = r.input ∧ (r2.cursor = r.cursor + len ∨ r2 = r)) ∧
      (∀ p r2, read_pointer r = (.ok p, r2) →
          r2.input = r.input ∧ r2.cursor = r.cursor + 32 ∧
          r2.cursor ≤ r.input.length ∧ p.cursor = 0) ∧
      (∀ e r2, read_pointer r = (.error e, r2) →
          r2.input = r.input ∧ (r2.cursor = r.cursor + 32 ∨ r2 = r)) := by
  intro r len msg
  refine ⟨?_, ?_, ?_, ?_⟩
  · intro d r2 h
    rw [readBytesAs_eq] at h
    split at h
    · split at h
      · rename_i hs
        simp only [Prod.mk.injEq, Except.ok.injEq] at h
        obtain ⟨hd, hr⟩ := h
        subst hr
        refine ⟨rfl, rfl, hs, ?_⟩
        rw [← hd]
        simp only [List.length_take, List.length_drop]
        omega
      · simp at h
    · simp at h
  · intro e r2 h
    rw [readBytesAs_eq] at h
    split at h
    · split at h
      · simp at h
      · simp only [Prod.mk.injEq, Except.error.injEq] at h
        rw [← h.2]
        exact ⟨rfl, Or.inl rfl⟩
    · simp only [Prod.mk.injEq, Except.error.injEq] at h
      rw [← h.2]
      exact ⟨rfl, Or.inr rfl⟩
  · intro p r2 h
    rw [read_pointer_eq] at h
    split at h
    · split at h
      · split at h
        · simp at h
        · split at h
          · simp at h
          · rename_i hs _ _
            simp only [Prod.mk.injEq, Except.ok.injEq] at h
            obtain ⟨hp, hr⟩ := h
            subst hr
            exact ⟨rfl, rfl, hs, by rw [← hp]⟩
      · simp at h
    · simp at h
  · intro e r2 h
    rw [read_pointer_eq] at h
    split at h
    · split at h
      · split at h
        · simp only [Prod.mk.injEq, Except.error.injEq] at h
          rw [← h.2]
          exact ⟨rfl, Or.inl rfl⟩
        · split at h
          · simp only [Prod.mk.injEq, Except.error.injEq] at h
            rw [← h.2]
            exact ⟨rfl, Or.inl rfl⟩
          · simp at h
      · simp only [Prod.mk.injEq, Except.error.injEq] at h
        rw [← h.2]
        exact ⟨rfl, Or.inl rfl⟩
    · simp only [Prod.mk.injEq, Except.error.injEq] at h
      rw [← h.2]
      exact ⟨rfl, Or.inr rfl⟩

/-- Witness for the amended C2 theorem: a concrete successful 32-byte read on a
32-byte input. -/
theorem c2_amended_bounded_reads_witness :
    (EvmDataReader.mk (List.replicate 32 7) 32).input =
        (EvmDataReader.mk (List.replicate 32 7) 0).input ∧
    (EvmDataReader.mk (List.replicate 32 7) 32).cursor =
        (EvmDataReader.mk (List.replicate 32 7) 0).cursor + 32 ∧
    (EvmDataReader.mk (List.replicate 32 7) 32).cursor ≤
        (EvmDataReader.mk (List.replicate 32 7) 0).input.length ∧
    (List.replicate 32 (7 : Nat)).length = 32 :=
  (c2_amended_bounded_reads ⟨List.replicate 32 7, 0⟩ 32 "m").1
    (List.replicate 32 7) ⟨List.replicate 32 7, 32⟩
    (by rw [readBytesAs_eq]; norm_num [USIZE])

/-! ### C10 -/

/-- C10: through the public interface (a failed `U256` read on a 10-byte input) the
reader reaches a state with `cursor = 32 > input.len() = 10`; on that state the
subtraction `input.len() - cursor` inside `read_till_end` underflows, so the
operation is not total on reachable states. -/
theorem c10_read_till_end_subtraction_underflow :
    (readValue .u256 ⟨List.replicate 10 0, 0⟩).1 =
        .error "tried to parse U256 out of bounds" ∧
    (readValue .u256 ⟨List.replicate 10 0, 0⟩).2 = ⟨List.replicate 10 0, 32⟩ ∧
    (EvmDataReader.mk (List.replicate 10 0) 32).input.length <
        (EvmDataReader.mk (List.replicate 10 0) 32).cursor ∧
    (read_till_end ⟨List.replicate 10 0, 32⟩).1 =
        .error "attempt to subtract with overflow" := by
  refine ⟨?_, ?_, ?_, ?_⟩ <;>
    simp [readValue, readU256, readBytesAs, move_cursor, sliceGet, read_till_end, USIZE]

end AbiData

namespace AbiData

/-! ### C4 -/

/-- C4: if the first word of the input decodes (through the `usize` conversion, hence
`off < 2^64`) to an offset `off`, `read_pointer` at cursor 0 rejects `off ≥ input.len()`
with "pointer points out of bounds" and otherwise returns a fresh reader over the
suffix of the input starting at `off`, with cursor 0. -/
theorem c4_read_pointer_first_word :
    ∀ (input : List Nat) (off : Nat),
      32 ≤ input.length →
      beVal (input.take 32) = off →
      off < USIZE →
      ((input.length ≤ off →
        read_pointer ⟨input, 0⟩ = (.error "pointer points out of bounds", ⟨input, 32⟩)) ∧
       (off < input.length →
        read_pointer ⟨input, 0⟩ = (.ok ⟨input.drop off, 0⟩, ⟨input, 32⟩))) := by
  intro input off hlen hval hfit
  rw [read_pointer_eq]
  simp only [List.drop_zero, Nat.zero_add, hval]
  rw [if_pos (by rw [USIZE]; norm_num), if_pos hlen]
  constructor
  · intro hoff
    rw [if_neg (by omega), if_pos (by omega)]
  · intro hoff
    rw [if_neg (by omega), if_neg (by omega)]

/-- Witness for C4: a 40-byte input whose first word is 5 (in bounds) and one whose
first word is 100 (out of bounds). -/
theorem c4_read_pointer_first_word_witness :
    read_pointer ⟨u256be 5 ++ List.replicate 8 9, 0⟩ =
      (.ok ⟨(u256be 5 ++ List.replicate 8 9).drop 5, 0⟩, ⟨u256be 5 ++ List.replicate 8 9, 32⟩) ∧
    read_pointer ⟨u256be 100 ++ List.replicate 8 9, 0⟩ =
      (.error "pointer points out of bounds", ⟨u256be 100 ++ List.replicate 8 9, 32⟩) :=
  ⟨(c4_read_pointer_first_word _ 5 (by decide) (by decide) (by decide)).2 (by decide),
   (c4_read_pointer_first_word _ 100 (by decide) (by decide) (by decide)).1 (by decide)⟩

/-! ### C8 -/

/-- C8 counterexample: on a 3-byte input, `read_selector` fails with the reason
"tried to parse selector out of bounds", not "input is too short" (that string is
produced by `new_skip_selector`). -/
theorem c8_cex_short_input_reason_string :
    read_selector (fun n => if n = 0x12345678 then some 0 else none) [18, 52, 86] =
      (.error "tried to parse selector out of bounds" : Except String Nat) ∧
    "tried to parse selector out of bounds" ≠ "input is too short" := by
  refine ⟨?_, by decide⟩
  rw [read_selector]
  norm_num

/-- C8 amended: selector extraction on fewer than 4 bytes fails with
"tried to parse selector out of bounds" (while `new_skip_selector` is the operation
that answers "input is too short"); on input `12 34 56 78` followed by anything it
yields the selector value `0x12345678` when the enumeration contains it and fails
with "unknown selector" otherwise. -/
theorem c8_amended_selector :
    ∀ {σ : Type} (enum : Nat → Option σ) (input rest : List Nat) (s : σ),
      (input.length < 4 →
        read_selector enum input = .error "tried to parse selector out of bounds") ∧
      (input.length < 4 → new_skip_selector input = .error "input is too short") ∧
      (enum 0x12345678 = some s →
        read_selector enum (18 :: 52 :: 86 :: 120 :: rest) = .ok s) ∧
      (enum 0x12345678 = none →
        read_selector enum (18 :: 52 :: 86 :: 120 :: rest) = .error "unknown selector") := by
  intro σ enum input rest s
  have htake : (18 :: 52 :: 86 :: 120 :: rest).take 4 = [18, 52, 86, 120] := by
    simp [List.take_succ_cons]
  have hv : beVal ((18 :: 52 :: 86 :: 120 :: rest).take 4) = 0x12345678 := by
    rw [htake]; decide
  have hlong : ¬((18 :: 52 :: 86 :: 120 :: rest).length < 4) := by
    simp only [List.length_cons]
    omega
  refine ⟨?_, ?_, ?_, ?_⟩
  · intro h
    rw [read_selector, if_pos h]
  · intro h
    rw [new_skip_selector, if_pos h]
  · intro h
    rw [read_selector, if_neg hlong, hv, h]
  · intro h
    rw [read_selector, if_neg hlong, hv, h]

/-- Witness for the amended C8 theorem. -/
theorem c8_amended_selector_witness :
    read_selector (fun n => if n = 305419896 then some 99 else none) [1, 2] =
      (.error "tried to parse selector out of bounds" : Except String Nat) ∧
    new_skip_selector [1, 2] = .error "input is too short" ∧
    read_selector (fun n => if n = 305419896 then some 99 else none)
        (18 :: 52 :: 86 :: 120 :: [7]) = .ok 99 :=
  ⟨(c8_amended_selector _ [1, 2] [7] 99).1 (by decide),
   (c8_amended_selector (fun n => if n = 305419896 then some 99 else none)
      [1, 2] [7] 99).2.1 (by decide),
   (c8_amended_selector _ [1, 2] [7] 99).2.2.1 (by decide)⟩

end AbiData

namespace AbiData

/-! ### List helpers -/

theorem drop_append_ge (l1 l2 : List Nat) (n : Nat) (h : l1.length ≤ n) :
    (l1 ++ l2).drop n = l2.drop (n - l1.length) := by
  rw [List.drop_append_eq_append_drop]
  simp [Nat.sub_eq_zero_of_le h, h]

theorem getD_append_ge (l1 l2 : List Nat) (d n : Nat) (h : l1.length ≤ n) :
    (l1 ++ l2).getD n d = l2.getD (n - l1.length) d := by
  simp [List.getD, List.getElem?_append_right h]

/-! ### One-word reads over a 32-byte buffer -/

theorem readBytesAs_exact (B : List Nat) (msg : String) (h : 32 ≤ B.length) :
    readBytesAs ⟨B, 0⟩ 32 msg = (.ok (B.take 32), ⟨B, 32⟩) := by
  rw [readBytesAs_eq]
  simp only [List.drop_zero, Nat.zero_add]
  rw [if_pos (by rw [USIZE]; norm_num), if_pos h]

theorem readValue_u8_word (B : List Nat) (h : 32 ≤ B.length) :
    readValue .u8 ⟨B, 0⟩ = (.ok (.num ((B.take 32).getD 31 0)), ⟨B, 32⟩) := by
  rw [readValue, readBytesAs_exact B _ h]

theorem readValue_uintW_word (w : Nat) (B : List Nat) (h : 32 ≤ B.length) :
    readValue (.uintW w) ⟨B, 0⟩ =
      (.ok (.num (beVal ((B.take 32).drop (32 - w)))), ⟨B, 32⟩) := by
  rw [readValue, readBytesAs_exact B _ h]

theorem readValue_u256_word (B : List Nat) (h : 32 ≤ B.length) :
    readValue .u256 ⟨B, 0⟩ = (.ok (.num (beVal (B.take 32))), ⟨B, 32⟩) := by
  rw [readValue, readU256, readBytesAs_exact B _ h]

theorem readValue_bool_word (B : List Nat) (h : 32 ≤ B.length) :
    readValue .boolT ⟨B, 0⟩ =
      (.ok (.vbool (!((B.take 32).all (fun x => x == 0)))), ⟨B, 32⟩) := by
  rw [readValue, readBytesAs_exact B _ h]

theorem readValue_address_word (B : List Nat) (h : 32 ≤ B.length) :
    readValue .address ⟨B, 0⟩ =
      (.ok (.vaddress (((B.take 32).drop 12).take 20)), ⟨B, 32⟩) := by
  rw [readValue, readBytesAs_exact B _ h]

theorem readValue_h256_word (B : List Nat) (h : 32 ≤ B.length) :
    readValue .h256 ⟨B, 0⟩ = (.ok (.vh256 (B.take 32)), ⟨B, 32⟩) := by
  rw [readValue, readBytesAs_exact B _ h]

/-! ### Closed forms for the static encodes -/

theorem build_no_offsets (d : List Nat) :
    EvmDataWriter.build ⟨d, [], none⟩ = d := rfl

theorem encode_u8 (v : Nat) :
    encode .u8 (.num v) = List.replicate 31 0 ++ beBytes 1 v := by
  rw [encode, writeValue]
  rfl

theorem encode_uintW (w v : Nat) :
    encode (.uintW w) (.num v) = List.replicate (32 - w) 0 ++ beBytes w v := by
  rw [encode, writeValue]
  rfl

theorem encode_u256 (v : Nat) : encode .u256 (.num v) = u256be v := by
  rw [encode, writeValue]
  rfl

theorem encode_bool (b : Bool) :
    encode .boolT (.vbool b) = List.replicate 31 0 ++ [if b then 1 else 0] := by
  rw [encode, writeValue]
  rfl

theorem encode_address (a : List Nat) :
    encode .address (.vaddress a) = List.replicate 12 0 ++ a := by
  rw [encode, writeValue]
  rfl

theorem encode_h256 (h : List Nat) : encode .h256 (.vh256 h) = h := by
  rw [encode, writeValue]
  rfl

end AbiData

namespace AbiData

/-! ### C5 -/

/-- C5: every static primitive round-trips through the codec, and on decode the upper
padding bytes of the shorter unsigned integers are ignored — decoding any 32-byte
word as `uN` yields the big-endian value of its low `N/8` bytes (for `u8`, byte 31). -/
theorem c5_static_primitive_roundtrip :
    (∀ v : Nat, v < 256 →
      readValue .u8 ⟨encode .u8 (.num v), 0⟩ =
        (.ok (.num v), ⟨encode .u8 (.num v), 32⟩)) ∧
    (∀ w v : Nat, (w = 2 ∨ w = 4 ∨ w = 8 ∨ w = 16) → v < 256 ^ w →
      readValue (.uintW w) ⟨encode (.uintW w) (.num v), 0⟩ =
        (.ok (.num v), ⟨encode (.uintW w) (.num v), 32⟩)) ∧
    (∀ v : Nat, v < 2 ^ 256 →
      readValue .u256 ⟨encode .u256 (.num v), 0⟩ =
        (.ok (.num v), ⟨encode .u256 (.num v), 32⟩)) ∧
    (∀ b : Bool,
      readValue .boolT ⟨encode .boolT (.vbool b), 0⟩ =
        (.ok (.vbool b), ⟨encode .boolT (.vbool b), 32⟩)) ∧
    (∀ a : List Nat, a.length = 20 →
      readValue .address ⟨encode .address (.vaddress a), 0⟩ =
        (.ok (.vaddress a), ⟨encode .address (.vaddress a), 32⟩)) ∧
    (∀ h : List Nat, h.length = 32 →
      readValue .h256 ⟨encode .h256 (.vh256 h), 0⟩ =
        (.ok (.vh256 h), ⟨encode .h256 (.vh256 h), 32⟩)) ∧
    (∀ (w : Nat) (word : List Nat), word.length = 32 →
      readValue (.uintW w) ⟨word, 0⟩ =
        (.ok (.num (beVal (word.drop (32 - w)))), ⟨word, 32⟩)) ∧
    (∀ word : List Nat, word.length = 32 →
      readValue .u8 ⟨word, 0⟩ = (.ok (.num (word.getD 31 0)), ⟨word, 32⟩)) := by
  refine ⟨?_, ?_, ?_, ?_, ?_, ?_, ?_, ?_⟩
  · intro v hv
    have hlen : (List.replicate 31 0 ++ beBytes 1 v).length = 32 := by
      simp [beBytes_length]
    rw [encode_u8, readValue_u8_word _ (le_of_eq hlen.symm)]
    have hval : ((List.replicate 31 0 ++ beBytes 1 v).take 32).getD 31 0 = v := by
      rw [List.take_of_length_le (le_of_eq hlen)]
      rw [getD_append_ge _ _ 0 31 (by simp)]
      simp [beBytes]
      omega
    rw [hval]
  · intro w v hw hv
    have hw32 : w ≤ 32 := by rcases hw with h | h | h | h <;> omega
    have hlen : (List.replicate (32 - w) 0 ++ beBytes w v).length = 32 := by
      simp [beBytes_length]
      omega
    rw [encode_uintW, readValue_uintW_word _ _ (le_of_eq hlen.symm)]
    have hval : beVal (((List.replicate (32 - w) 0 ++ beBytes w v).take 32).drop (32 - w)) = v := by
      rw [List.take_of_length_le (le_of_eq hlen)]
      rw [drop_append_ge _ _ _ (by simp)]
      simp [beVal_beBytes]
      exact Nat.mod_eq_of_lt hv
    rw [hval]
  · intro v hv
    have hlen : (u256be v).length = 32 := u256be_length v
    rw [encode_u256, readValue_u256_word _ (le_of_eq hlen.symm)]
    rw [List.take_of_length_le (le_of_eq hlen), beVal_u256be v hv]
  · intro b
    have hlen : (List.replicate 31 0 ++ [if b then 1 else 0]).length = 32 := by simp
    rw [encode_bool, readValue_bool_word _ (le_of_eq hlen.symm)]
    rw [List.take_of_length_le (le_of_eq hlen)]
    cases b <;> simp
  · intro a ha
    have hlen : (List.replicate 12 0 ++ a).length = 32 := by simp [ha]
    rw [encode_address, readValue_address_word _ (le_of_eq hlen.symm)]
    have hval : (((List.replicate 12 0 ++ a).take 32).drop 12).take 20 = a := by
      rw [List.take_of_length_le (le_of_eq hlen)]
      rw [drop_append_ge _ _ _ (by simp)]
      simp [List.take_of_length_le (le_of_eq ha)]
    rw [hval]
  · intro h hh
    rw [encode_h256, readValue_h256_word _ (le_of_eq hh.symm)]
    rw [List.take_of_length_le (le_of_eq hh)]
  · intro w word hw
    rw [readValue_uintW_word _ _ (le_of_eq hw.symm)]
    rw [List.take_of_length_le (le_of_eq hw)]
  · intro word hw
    rw [readValue_u8_word _ (le_of_eq hw.symm)]
    rw [List.take_of_length_le (le_of_eq hw)]

/-- Witness for C5: concrete values of each static primitive. -/
theorem c5_static_primitive_roundtrip_witness :
    readValue .u8 ⟨encode .u8 (.num 5), 0⟩ = (.ok (.num 5), ⟨encode .u8 (.num 5), 32⟩) ∧
    readValue (.uintW 2) ⟨encode (.uintW 2) (.num 300), 0⟩ =
      (.ok (.num 300), ⟨encode (.uintW 2) (.num 300), 32⟩) ∧
    readValue .u256 ⟨encode .u256 (.num 7), 0⟩ =
      (.ok (.num 7), ⟨encode .u256 (.num 7), 32⟩) ∧
    readValue .boolT ⟨encode .boolT (.vbool true), 0⟩ =
      (.ok (.vbool true), ⟨encode .boolT (.vbool true), 32⟩) ∧
    readValue .address ⟨encode .address (.vaddress (List.replicate 20 1)), 0⟩ =
      (.ok (.vaddress (List.replicate 20 1)),
        ⟨encode .address (.vaddress (List.replicate 20 1)), 32⟩) ∧
    readValue .h256 ⟨encode .h256 (.vh256 (List.replicate 32 2)), 0⟩ =
      (.ok (.vh256 (List.replicate 32 2)),
        ⟨encode .h256 (.vh256 (List.replicate 32 2)), 32⟩) ∧
    readValue (.uintW 8) ⟨List.replicate 32 255, 0⟩ =
      (.ok (.num (beVal ((List.replicate 32 255).drop (32 - 8)))), ⟨List.replicate 32 255, 32⟩) ∧
    readValue .u8 ⟨List.replicate 32 255, 0⟩ =
      (.ok (.num ((List.replicate 32 255).getD 31 0)), ⟨List.replicate 32 255, 32⟩) :=
  ⟨c5_static_primitive_roundtrip.1 5 (by decide),
   c5_static_primitive_roundtrip.2.1 2 300 (Or.inl rfl) (by decide),
   c5_static_primitive_roundtrip.2.2.1 7 (by norm_num),
   c5_static_primitive_roundtrip.2.2.2.1 true,
   c5_static_primitive_roundtrip.2.2.2.2.1 (List.replicate 20 1) (by decide),
   c5_static_primitive_roundtrip.2.2.2.2.2.1 (List.replicate 32 2) (by decide),
   c5_static_primitive_roundtrip.2.2.2.2.2.2.1 8 (List.replicate 32 255) (by decide),
   c5_static_primitive_roundtrip.2.2.2.2.2.2.2 (List.replicate 32 255) (by decide)⟩

end AbiData

namespace AbiData

/-! ### Word-prefix helpers and pointer/bytes reads over structured buffers -/

theorem take32_word (n : Nat) (rest : List Nat) : (u256be n ++ rest).take 32 = u256be n := by
  rw [List.take_append_of_le_length (by rw [u256be_length])]
  exact List.take_of_length_le (by rw [u256be_length])

theorem drop32_word (n : Nat) (rest : List Nat) : (u256be n ++ rest).drop 32 = rest := by
  rw [drop_append_ge _ _ 32 (by rw [u256be_length])]
  simp [u256be_length]

/-- A successful `read_pointer` at an arbitrary cursor: the word under the cursor is a
baked offset `p` that passes both checks, and the result is a rebased reader. -/
theorem read_pointer_ok (B : List Nat) (c p : Nat)
    (hc : c + 32 ≤ B.length) (hcf : c + 32 < USIZE)
    (hhead : (B.drop c).take 32 = u256be p)
    (hpfit : p < USIZE) (hplt : p < B.length) :
    read_pointer ⟨B, c⟩ = (.ok ⟨B.drop p, 0⟩, ⟨B, c + 32⟩) := by
  rw [read_pointer_eq]
  simp only
  rw [if_pos hcf, if_pos hc, hhead]
  rw [beVal_u256be p (lt_of_lt_of_le hpfit (by rw [USIZE]; norm_num))]
  rw [if_neg (by omega), if_neg (by omega)]

/-- A successful `Bytes::read` at an arbitrary cursor: the word under the cursor points
at `D = B[p..]`, whose first word is the length `L`, and the following `L` bytes are
returned. -/
theorem readValue_bytes_ok (B : List Nat) (c p L : Nat) (D : List Nat)
    (hc : c + 32 ≤ B.length) (hcf : c + 32 < USIZE)
    (hhead : (B.drop c).take 32 = u256be p)
    (hpfit : p < USIZE) (hplt : p < B.length)
    (hD : B.drop p = D)
    (hlen : D.take 32 = u256be L) (hLfit : L + 32 < USIZE)
    (hbody : 32 + L ≤ D.length) :
    readValue .bytes ⟨B, c⟩ = (.ok (.vbytes ((D.drop 32).take L)), ⟨B, c + 32⟩) := by
  have hrp := read_pointer_ok B c p hc hcf hhead hpfit hplt
  rw [hD] at hrp
  have hL256 : L < 2 ^ 256 := by
    have : USIZE ≤ 2 ^ 256 := by rw [USIZE]; norm_num
    omega
  have hru : readU256 ⟨D, 0⟩ = (.ok L, ⟨D, 32⟩) := by
    rw [readU256_eq]
    simp only [List.drop_zero, Nat.zero_add]
    rw [if_pos (by rw [USIZE]; norm_num), if_pos (by omega), hlen, beVal_u256be L hL256]
  have hmv : move_cursor ⟨D, 32⟩ L = .ok ((32, 32 + L), ⟨D, 32 + L⟩) := by
    have h32 : (32 : Nat) + L < USIZE := by omega
    simp [move_cursor, h32]
  have hsg : sliceGet D 32 (32 + L) = some ((D.drop 32).take L) := by
    have harg : 32 + L - 32 = L := by omega
    rw [sliceGet, if_pos ⟨by omega, hbody⟩, harg]
  rw [readValue, hrp]
  simp only [hru, hmv, hsg]
  rw [if_neg (show ¬ L ≥ USIZE by omega)]

end AbiData

namespace AbiData

/-! ### Closed form of the bytes encode -/

theorem padded_size_eq (len : Nat) :
    (if len % 32 == 0 then (len / 32) * 32 else (len / 32 + 1) * 32) =
      ((len + 31) / 32) * 32 := by
  by_cases h : len % 32 = 0 <;> simp [h] <;> omega

theorem encode_bytes (b : List Nat) :
    encode .bytes (.vbytes b) =
      u256be 32 ++ (u256be b.length ++
        (b ++ List.replicate (((b.length + 31) / 32) * 32 - b.length) 0)) := by
  rw [encode, writeValue]
  simp only [write_raw_bytes, write_pointer, EvmDataWriter.new, EvmDataWriter.build,
    bake_offsets, writeWordAt, padded_size_eq]
  simp [u256be]

/-! ### C3 -/

/-- C3: `Bytes` round-trips for every buffer (the `usize` hypothesis is inherent to
the source, whose buffers live in memory), and the encoding has length exactly
`64 + ceil(len/32)*32`: pointer word, length word, and the body zero-padded to a
multiple of 32. -/
theorem c3_bytes_roundtrip :
    ∀ b : List Nat, b.length + 32 < USIZE →
      readValue .bytes ⟨encode .bytes (.vbytes b), 0⟩ =
        (.ok (.vbytes b), ⟨encode .bytes (.vbytes b), 32⟩) ∧
      (encode .bytes (.vbytes b)).length = 64 + ((b.length + 31) / 32) * 32 := by
  intro b hb
  have hpadge : b.length ≤ ((b.length + 31) / 32) * 32 := by omega
  have hE := encode_bytes b
  have hElen : (encode .bytes (.vbytes b)).length = 64 + ((b.length + 31) / 32) * 32 := by
    rw [hE]
    simp [u256be_length]
    omega
  refine ⟨?_, hElen⟩
  have hread := readValue_bytes_ok (encode .bytes (.vbytes b)) 0 32 b.length
    (u256be b.length ++
      (b ++ List.replicate (((b.length + 31) / 32) * 32 - b.length) 0))
    (by omega) (by rw [USIZE]; norm_num)
    (by rw [hE]; simp only [List.drop_zero]; exact take32_word _ _)
    (by rw [USIZE]; norm_num) (by omega)
    (by rw [hE]; exact drop32_word _ _)
    (take32_word _ _) hb
    (by simp only [List.length_append, u256be_length, List.length_replicate]; omega)
  rw [hread]
  have hbody : ((u256be b.length ++
      (b ++ List.replicate (((b.length + 31) / 32) * 32 - b.length) 0)).drop 32).take b.length
      = b := by
    rw [drop32_word]
    rw [List.take_append_of_le_length (le_refl _)]
    exact List.take_of_length_le (le_refl _)
  rw [hbody]

/-- Witness for C3: the 2-byte buffer of scenario S6. -/
theorem c3_bytes_roundtrip_witness :
    readValue .bytes ⟨encode .bytes (.vbytes [111, 107]), 0⟩ =
      (.ok (.vbytes [111, 107]), ⟨encode .bytes (.vbytes [111, 107]), 32⟩) ∧
    (encode .bytes (.vbytes [111, 107])).length =
      64 + (((List.length [111, 107]) + 31) / 32) * 32 :=
  c3_bytes_roundtrip [111, 107] (by decide)

end AbiData

namespace AbiData

/-! ### Closed form of the vec-of-U256 encode -/

theorem encode_via_write_pointer (t : EvmType) (v : EvmValue) (P : List Nat)
    (h : writeValue t v EvmDataWriter.new = write_pointer EvmDataWriter.new P) :
    encode t v = u256be 32 ++ P := by
  rw [encode, h]
  show EvmDataWriter.build
      ⟨[] ++ List.replicate 32 255, [] ++ [⟨0, P, 0⟩], none⟩ = u256be 32 ++ P
  rw [EvmDataWriter.build]
  simp [bake_offsets, writeWordAt, u256be]

theorem writeItems_u256 (vs : List Nat) (inner : EvmDataWriter) :
    writeItems .u256 (vs.map .num) inner =
      { inner with data := inner.data ++ (vs.map u256be).flatten } := by
  induction vs generalizing inner with
  | nil => simp [writeItems]
  | cons v rest ih =>
    rw [List.map_cons, writeItems, writeValue]
    simp only [write_raw_bytes, EvmDataWriter.new]
    rw [ih]
    simp

theorem encode_vec_u256 (vs : List Nat) :
    encode (.vec .u256) (.varray (vs.map .num)) =
      u256be 32 ++ (u256be (vs.length) ++ (vs.map u256be).flatten) := by
  have h : writeValue (.vec .u256) (.varray (vs.map .num)) EvmDataWriter.new =
      write_pointer EvmDataWriter.new (u256be vs.length ++ (vs.map u256be).flatten) := by
    rw [writeValue, writeItems_u256]
    congr 1
    rw [EvmDataWriter.build]
    simp [write_raw_bytes, EvmDataWriter.new, bake_offsets]
  exact encode_via_write_pointer _ _ _ h

end AbiData

namespace AbiData

/-! ### Decoder failure lemmas -/

theorem lt_u256_of_lt_USIZE {p : Nat} (h : p < USIZE) : p < 2 ^ 256 :=
  lt_of_lt_of_le h (by rw [USIZE]; norm_num)

theorem USIZE_big : (32 : Nat) < USIZE := by rw [USIZE]; norm_num

theorem readValue_bytes_err_word (B : List Nat) (c : Nat)
    (hc : B.length < c + 32) (hcf : c + 32 < USIZE) :
    readValue .bytes ⟨B, c⟩ =
      (.error "tried to parse array offset out of bounds", ⟨B, c + 32⟩) := by
  rw [readValue, read_pointer_eq]
  simp only
  rw [if_pos hcf, if_neg (by omega)]

theorem readValue_bytes_err_ptr (B : List Nat) (c p : Nat)
    (hc : c + 32 ≤ B.length) (hcf : c + 32 < USIZE)
    (hhead : (B.drop c).take 32 = u256be p)
    (hpfit : p < USIZE) (hplt : B.length ≤ p) :
    readValue .bytes ⟨B, c⟩ = (.error "pointer points out of bounds", ⟨B, c + 32⟩) := by
  rw [readValue, read_pointer_eq]
  simp only
  rw [if_pos hcf, if_pos hc, hhead, beVal_u256be p (lt_u256_of_lt_USIZE hpfit)]
  rw [if_neg (by omega), if_pos (by omega)]

theorem readValue_bytes_err_len (B : List Nat) (c p : Nat) (D : List Nat)
    (hc : c + 32 ≤ B.length) (hcf : c + 32 < USIZE)
    (hhead : (B.drop c).take 32 = u256be p)
    (hpfit : p < USIZE) (hplt : p < B.length)
    (hD : B.drop p = D) (hshort : D.length < 32) :
    readValue .bytes ⟨B, c⟩ =
      (.error "tried to parse bytes/string length out of bounds", ⟨B, c + 32⟩) := by
  have hrp := read_pointer_ok B c p hc hcf hhead hpfit hplt
  rw [hD] at hrp
  have hru : readU256 ⟨D, 0⟩ = (.error "tried to parse U256 out of bounds", ⟨D, 32⟩) := by
    rw [readU256_eq]
    simp only
    rw [if_pos (by simpa using USIZE_big), if_neg (by omega)]
  rw [readValue, hrp]
  simp only [hru]

theorem readValue_bytes_err_body (B : List Nat) (c p L : Nat) (D : List Nat)
    (hc : c + 32 ≤ B.length) (hcf : c + 32 < USIZE)
    (hhead : (B.drop c).take 32 = u256be p)
    (hpfit : p < USIZE) (hplt : p < B.length)
    (hD : B.drop p = D)
    (hlen : D.take 32 = u256be L) (hLfit : L + 32 < USIZE)
    (h32 : 32 ≤ D.length) (hshort : D.length < 32 + L) :
    readValue .bytes ⟨B, c⟩ =
      (.error "tried to parse bytes/string out of bounds", ⟨B, c + 32⟩) := by
  have hrp := read_pointer_ok B c p hc hcf hhead hpfit hplt
  rw [hD] at hrp
  have hru : readU256 ⟨D, 0⟩ = (.ok L, ⟨D, 32⟩) := by
    rw [readU256_eq]
    simp only [List.drop_zero, Nat.zero_add]
    rw [if_pos (by simpa using USIZE_big), if_pos (by omega), hlen,
      beVal_u256be L (lt_u256_of_lt_USIZE (by omega))]
  have hmv : move_cursor ⟨D, 32⟩ L = .ok ((32, 32 + L), ⟨D, 32 + L⟩) := by
    have hL : (32 : Nat) + L < USIZE := by omega
    simp [move_cursor, hL]
  have hsg : sliceGet D 32 (32 + L) = none := by
    rw [sliceGet, if_neg]
    intro hh
    omega
  rw [readValue, hrp]
  simp only [hru, hmv, hsg]
  rw [if_neg (show ¬ L ≥ USIZE by omega)]

theorem readValue_vec_err_word (t : EvmType) (B : List Nat) (c : Nat)
    (hc : B.length < c + 32) (hcf : c + 32 < USIZE) :
    readValue (.vec t) ⟨B, c⟩ =
      (.error "tried to parse array offset out of bounds", ⟨B, c + 32⟩) := by
  rw [readValue, read_pointer_eq]
  simp only
  rw [if_pos hcf, if_neg (by omega)]

theorem readValue_vec_err_ptr (t : EvmType) (B : List Nat) (c p : Nat)
    (hc : c + 32 ≤ B.length) (hcf : c + 32 < USIZE)
    (hhead : (B.drop c).take 32 = u256be p)
    (hpfit : p < USIZE) (hplt : B.length ≤ p) :
    readValue (.vec t) ⟨B, c⟩ =
      (.error "pointer points out of bounds", ⟨B, c + 32⟩) := by
  rw [readValue, read_pointer_eq]
  simp only
  rw [if_pos hcf, if_pos hc, hhead, beVal_u256be p (lt_u256_of_lt_USIZE hpfit)]
  rw [if_neg (by omega), if_pos (by omega)]

theorem readValue_vec_err_len (t : EvmType) (B : List Nat) (c p : Nat) (D : List Nat)
    (hc : c + 32 ≤ B.length) (hcf : c + 32 < USIZE)
    (hhead : (B.drop c).take 32 = u256be p)
    (hpfit : p < USIZE) (hplt : p < B.length)
    (hD : B.drop p = D) (hshort : D.length < 32) :
    readValue (.vec t) ⟨B, c⟩ =
      (.error "tried to parse array length out of bounds", ⟨B, c + 32⟩) := by
  have hrp := read_pointer_ok B c p hc hcf hhead hpfit hplt
  rw [hD] at hrp
  have hru : readU256 ⟨D, 0⟩ = (.error "tried to parse U256 out of bounds", ⟨D, 32⟩) := by
    rw [readU256_eq]
    simp only
    rw [if_pos (by simpa using USIZE_big), if_neg (by omega)]
  rw [readValue, hrp]
  simp only [hru]

theorem readValue_vec_err_items (t : EvmType) (B : List Nat) (c p n : Nat) (D : List Nat)
    (hc : c + 32 ≤ B.length) (hcf : c + 32 < USIZE)
    (hhead : (B.drop c).take 32 = u256be p)
    (hpfit : p < USIZE) (hplt : p < B.length)
    (hD : B.drop p = D)
    (hlen : D.take 32 = u256be n) (hnfit : n < USIZE)
    (h32 : 32 ≤ D.length)
    (e : String) (r3 : EvmDataReader)
    (hitems : readItems t n ⟨D.drop 32, 0⟩ = (.error e, r3)) :
    readValue (.vec t) ⟨B, c⟩ = (.error e, ⟨B, c + 32⟩) := by
  have hrp := read_pointer_ok B c p hc hcf hhead hpfit hplt
  rw [hD] at hrp
  have hru : readU256 ⟨D, 0⟩ = (.ok n, ⟨D, 32⟩) := by
    rw [readU256_eq]
    simp only [List.drop_zero, Nat.zero_add]
    rw [if_pos (by simpa using USIZE_big), if_pos (by omega), hlen,
      beVal_u256be n (lt_u256_of_lt_USIZE hnfit)]
  rw [readValue, hrp]
  simp only [hru, hitems]
  rw [if_neg (show ¬ n ≥ USIZE by omega), if_pos h32]

theorem readItems_u256_short (n : Nat) :
    ∀ (I : List Nat) (c : Nat), I.length < c + 32 * (n + 1) → c + 32 * (n + 1) < USIZE →
      ∃ r2, readItems .u256 (n + 1) ⟨I, c⟩ =
        (.error "tried to parse U256 out of bounds", r2) := by
  induction n with
  | zero =>
    intro I c hshort hfit
    refine ⟨⟨I, c + 32⟩, ?_⟩
    rw [readItems, readValue, readU256_eq]
    simp only
    rw [if_pos (by omega), if_neg (by omega)]
  | succ n ih =>
    intro I c hshort hfit
    by_cases hfirst : c + 32 ≤ I.length
    · have hru : readValue .u256 ⟨I, c⟩ =
          (.ok (.num (beVal ((I.drop c).take 32))), ⟨I, c + 32⟩) := by
        rw [readValue, readU256_eq]
        simp only
        rw [if_pos (by omega), if_pos hfirst]
      obtain ⟨r2, hr2⟩ := ih I (c + 32) (by omega) (by omega)
      refine ⟨r2, ?_⟩
      rw [readItems, hru]
      simp only [hr2]
    · refine ⟨⟨I, c + 32⟩, ?_⟩
      have hru : readValue .u256 ⟨I, c⟩ =
          (.error "tried to parse U256 out of bounds", ⟨I, c + 32⟩) := by
        rw [readValue, readU256_eq]
        simp only
        rw [if_pos (by omega), if_neg (by omega)]
      rw [readItems, hru]

end AbiData

namespace AbiData

/-! ### C7 -/

theorem flatten_map_u256_length (vs : List Nat) :
    ((vs.map u256be).flatten).length = 32 * vs.length := by
  induction vs with
  | nil => simp
  | cons v rest ih =>
    simp [ih, u256be_length]
    ring

/-- Truncating the encoding of a `Bytes` whose body is already 32-aligned by any
`k ∈ [1, 33]` bytes makes decoding fail with one of the §7 bounds errors. -/
theorem bytes_truncation_fails (b : List Nat) (k : Nat)
    (hk : 1 ≤ k ∧ k ≤ 33) (hmod : b.length % 32 = 0)
    (hfit : b.length + 64 < USIZE) :
    ∃ e, (readValue .bytes ⟨(encode .bytes (.vbytes b)).take
          ((encode .bytes (.vbytes b)).length - k), 0⟩).1 = .error e ∧
      e ∈ boundsErrors := by
  have hpad : ((b.length + 31) / 32) * 32 = b.length := by omega
  have hE : encode .bytes (.vbytes b) = u256be 32 ++ (u256be b.length ++ b) := by
    rw [encode_bytes, hpad]
    simp
  have hElen : (encode .bytes (.vbytes b)).length = 64 + b.length := by
    rw [hE]
    simp only [List.length_append, u256be_length]
    omega
  rw [hElen]
  have hTlen : ((encode .bytes (.vbytes b)).take (64 + b.length - k)).length
      = 64 + b.length - k := by
    rw [List.length_take, hElen]
    omega
  by_cases hA : 64 + b.length - k < 32
  · refine ⟨"tried to parse array offset out of bounds", ?_, by simp [boundsErrors]⟩
    rw [readValue_bytes_err_word _ 0 (by omega) (by simpa using USIZE_big)]
  · have hhead : (((encode .bytes (.vbytes b)).take (64 + b.length - k)).drop 0).take 32
        = u256be 32 := by
      simp only [List.drop_zero]
      rw [List.take_take, min_eq_left (by omega), hE, take32_word]
    by_cases hB : 64 + b.length - k ≤ 32
    · refine ⟨"pointer points out of bounds", ?_, by simp [boundsErrors]⟩
      rw [readValue_bytes_err_ptr _ 0 32 (by omega) (by simpa using USIZE_big) hhead
        (by simpa using USIZE_big) (by omega)]
    · have hDeq : ((encode .bytes (.vbytes b)).take (64 + b.length - k)).drop 32
          = (u256be b.length ++ b).take (64 + b.length - k - 32) := by
        rw [List.drop_take, hE, drop32_word]
      have hDlen : (((encode .bytes (.vbytes b)).take (64 + b.length - k)).drop 32).length
          = 64 + b.length - k - 32 := by
        rw [List.length_drop, hTlen]
      by_cases hC : 64 + b.length - k - 32 < 32
      · refine ⟨"tried to parse bytes/string length out of bounds", ?_, by simp [boundsErrors]⟩
        rw [readValue_bytes_err_len _ 0 32 _ (by omega) (by simpa using USIZE_big) hhead
          (by simpa using USIZE_big) (by omega) rfl (by omega)]
      · have hlenword : (((encode .bytes (.vbytes b)).take (64 + b.length - k)).drop 32).take 32
            = u256be b.length := by
          rw [hDeq, List.take_take, min_eq_left (by omega), take32_word]
        refine ⟨"tried to parse bytes/string out of bounds", ?_, by simp [boundsErrors]⟩
        rw [readValue_bytes_err_body _ 0 32 b.length _ (by omega)
          (by simpa using USIZE_big) hhead (by simpa using USIZE_big) (by omega) rfl
          hlenword (by omega) (by omega) (by omega)]

/-- Truncating the encoding of a `U256[]` by any `k ∈ [1, 33]` bytes makes decoding
fail with one of the §7 bounds errors. -/
theorem vec_u256_truncation_fails (vs : List Nat) (k : Nat)
    (hk : 1 ≤ k ∧ k ≤ 33)
    (hfit : 32 * vs.length + 64 < USIZE) :
    ∃ e, (readValue (.vec .u256) ⟨(encode (.vec .u256) (.varray (vs.map .num))).take
          ((encode (.vec .u256) (.varray (vs.map .num))).length - k), 0⟩).1 = .error e ∧
      e ∈ boundsErrors := by
  have hE := encode_vec_u256 vs
  have hElen : (encode (.vec .u256) (.varray (vs.map .num))).length
      = 64 + 32 * vs.length := by
    rw [hE]
    simp only [List.length_append, u256be_length, flatten_map_u256_length]
    omega
  rw [hElen]
  have hTlen : ((encode (.vec .u256) (.varray (vs.map .num))).take
      (64 + 32 * vs.length - k)).length = 64 + 32 * vs.length - k := by
    rw [List.length_take, hElen]
    omega
  by_cases hA : 64 + 32 * vs.length - k < 32
  · refine ⟨"tried to parse array offset out of bounds", ?_, by simp [boundsErrors]⟩
    rw [readValue_vec_err_word _ _ 0 (by omega) (by simpa using USIZE_big)]
  · have hhead : (((encode (.vec .u256) (.varray (vs.map .num))).take
        (64 + 32 * vs.length - k)).drop 0).take 32 = u256be 32 := by
      simp only [List.drop_zero]
      rw [List.take_take, min_eq_left (by omega), hE, take32_word]
    by_cases hB : 64 + 32 * vs.length - k ≤ 32
    · refine ⟨"pointer points out of bounds", ?_, by simp [boundsErrors]⟩
      rw [readValue_vec_err_ptr _ _ 0 32 (by omega) (by simpa using USIZE_big) hhead
        (by simpa using USIZE_big) (by omega)]
    · have hDeq : ((encode (.vec .u256) (.varray (vs.map .num))).take
          (64 + 32 * vs.length - k)).drop 32
          = (u256be vs.length ++ (vs.map u256be).flatten).take
              (64 + 32 * vs.length - k - 32) := by
        rw [List.drop_take, hE, drop32_word]
      have hDlen : (((encode (.vec .u256) (.varray (vs.map .num))).take
          (64 + 32 * vs.length - k)).drop 32).length
          = 64 + 32 * vs.length - k - 32 := by
        rw [List.length_drop, hTlen]
      by_cases hC : 64 + 32 * vs.length - k - 32 < 32
      · refine ⟨"tried to parse array length out of bounds", ?_, by simp [boundsErrors]⟩
        rw [readValue_vec_err_len _ _ 0 32 _ (by omega) (by simpa using USIZE_big) hhead
          (by simpa using USIZE_big) (by omega) rfl (by omega)]
      · have hn1 : 1 ≤ vs.length := by
          by_contra hno
          omega
        have hlenword : (((encode (.vec .u256) (.varray (vs.map .num))).take
            (64 + 32 * vs.length - k)).drop 32).take 32 = u256be vs.length := by
          rw [hDeq, List.take_take, min_eq_left (by omega), take32_word]
        have hIeq : ((((encode (.vec .u256) (.varray (vs.map .num))).take
            (64 + 32 * vs.length - k)).drop 32).drop 32)
            = ((vs.map u256be).flatten).take (64 + 32 * vs.length - k - 32 - 32) := by
          rw [hDeq, List.drop_take, drop32_word]
        have hIlen : (((vs.map u256be).flatten).take
            (64 + 32 * vs.length - k - 32 - 32)).length = 32 * vs.length - k := by
          rw [List.length_take, flatten_map_u256_length]
          omega
        obtain ⟨m, hm⟩ : ∃ m, vs.length = m + 1 := ⟨vs.length - 1, by omega⟩
        obtain ⟨r2, hr2⟩ := readItems_u256_short m
          (((vs.map u256be).flatten).take (64 + 32 * vs.length - k - 32 - 32)) 0
          (by rw [hIlen, ← hm]; omega) (by rw [← hm]; omega)
        rw [← hm] at hr2
        refine ⟨"tried to parse U256 out of bounds", ?_, by simp [boundsErrors]⟩
        rw [readValue_vec_err_items _ _ 0 32 vs.length _ (by omega)
          (by simpa using USIZE_big) hhead (by simpa using USIZE_big) (by omega) rfl
          hlenword (by omega) (by omega) _ r2 (by rw [hIeq]; exact hr2)]

/-- C7 counterexample: truncating the valid encoding of `Bytes([0x61])` (96 bytes) by
1 byte only removes padding, and decoding the 95-byte input still succeeds with the
original value — not a bounds error. -/
theorem c7_cex_truncation_still_decodes :
    (encode .bytes (.vbytes [97])).length = 96 ∧
    (readValue .bytes ⟨(encode .bytes (.vbytes [97])).take 95, 0⟩).1 =
      .ok (.vbytes [97]) := by
  have hE : encode .bytes (.vbytes [97]) =
      u256be 32 ++ (u256be 1 ++ ([97] ++ List.replicate 31 0)) := by
    rw [encode_bytes]
    norm_num
  constructor
  · rw [hE]
    simp [u256be_length]
  · have hhead : (((encode .bytes (.vbytes [97])).take 95).drop 0).take 32 = u256be 32 := by
      simp only [List.drop_zero]
      rw [List.take_take, min_eq_left (by omega), hE, take32_word]
    have hTlen : ((encode .bytes (.vbytes [97])).take 95).length = 95 := by
      rw [List.length_take, hE]
      simp only [List.length_append, u256be_length, List.length_cons, List.length_nil,
        List.length_replicate]
      omega
    have hDeq : ((encode .bytes (.vbytes [97])).take 95).drop 32
        = (u256be 1 ++ ([97] ++ List.replicate 31 0)).take 63 := by
      rw [List.drop_take, hE, drop32_word]
    have hlenword : (((encode .bytes (.vbytes [97])).take 95).drop 32).take 32
        = u256be 1 := by
      rw [hDeq, List.take_take, min_eq_left (by omega), take32_word]
    have hDlen : (((encode .bytes (.vbytes [97])).take 95).drop 32).length = 63 := by
      rw [List.length_drop, hTlen]
    rw [readValue_bytes_ok _ 0 32 1 _ (by omega) (by simpa using USIZE_big) hhead
      (by simpa using USIZE_big) (by omega) rfl hlenword (by rw [USIZE]; norm_num)
      (by omega)]
    have hbody : (((((encode .bytes (.vbytes [97])).take 95).drop 32).drop 32)).take 1
        = [97] := by
      rw [hDeq, List.drop_take, drop32_word]
      rw [List.take_take, min_eq_left (by omega)]
      rfl
    rw [hbody]

/-- C7 amended: truncating a writer-produced encoding by `k ∈ {1, 31, 32, 33}` bytes
makes decoding fail with one of the §7 bounds errors whenever the truncation removes
bytes the decoder consumes — in particular for every `Bytes` whose body length is a
multiple of 32 and for every `U256[]`.  When the truncation removes only trailing
zero padding of a `bytes` body (see the counterexample), decoding can still succeed,
so the claim does not hold for arbitrary valid encodings. -/
theorem c7_truncation_amended :
    ∀ k : Nat, (k = 1 ∨ k = 31 ∨ k = 32 ∨ k = 33) →
    (∀ b : List Nat, b.length % 32 = 0 → b.length + 64 < USIZE →
      ∃ e, (readValue .bytes ⟨(encode .bytes (.vbytes b)).take
            ((encode .bytes (.vbytes b)).length - k), 0⟩).1 = .error e ∧
        e ∈ boundsErrors) ∧
    (∀ vs : List Nat, 32 * vs.length + 64 < USIZE →
      ∃ e, (readValue (.vec .u256) ⟨(encode (.vec .u256) (.varray (vs.map .num))).take
            ((encode (.vec .u256) (.varray (vs.map .num))).length - k), 0⟩).1 = .error e ∧
        e ∈ boundsErrors) := by
  intro k hk
  have hk' : 1 ≤ k ∧ k ≤ 33 := by rcases hk with h | h | h | h <;> omega
  exact ⟨fun b h1 h2 => bytes_truncation_fails b k hk' h1 h2,
    fun vs h => vec_u256_truncation_fails vs k hk' h⟩

/-- Witness for the amended C7 theorem: `k = 32`, the empty buffer and the
one-element `U256[]`. -/
theorem c7_truncation_amended_witness :
    (∃ e, (readValue .bytes ⟨(encode .bytes (.vbytes [])).take
          ((encode .bytes (.vbytes [])).length - 32), 0⟩).1 = .error e ∧
      e ∈ boundsErrors) ∧
    (∃ e, (readValue (.vec .u256) ⟨(encode (.vec .u256) (.varray ([5].map .num))).take
          ((encode (.vec .u256) (.varray ([5].map .num))).length - 32), 0⟩).1 = .error e ∧
      e ∈ boundsErrors) :=
  ⟨(c7_truncation_amended 32 (by omega)).1 [] (by decide) (by decide),
   (c7_truncation_amended 32 (by omega)).2 [5] (by decide)⟩

end AbiData

namespace AbiData

/-! ### Writer locality: a write only appends, with pending positions rebased -/

theorem sizeOf_lt_of_mem_types {ts : List EvmType} {t : EvmType} (h : t ∈ ts) :
    sizeOf t < sizeOf ts := by
  induction ts with
  | nil => cases h
  | cons a rest ih =>
    rcases List.mem_cons.mp h with h1 | h1
    · subst h1; simp; omega
    · have := ih h1; simp; omega

theorem sizeOf_EvmType_pos (t : EvmType) : 1 ≤ sizeOf t := by
  cases t <;> simp <;> omega

theorem tuplePends_shift (k : Nat) : ∀ (ts : List EvmType) (vs : List EvmValue) (b : Nat),
    (tuplePends b ts vs).map
      (fun od => { od with offset_position := od.offset_position + k })
      = tuplePends (b + k) ts vs := by
  intro ts
  induction ts with
  | nil => intro vs b; cases vs <;> simp [tuplePends]
  | cons t rest ih =>
    intro vs b
    cases vs with
    | nil => simp [tuplePends]
    | cons v vrest =>
      rw [tuplePends, tuplePends]
      rw [List.map_append, List.map_map, ih]
      refine congrArg₂ (· ++ ·) ?_ ?_
      · apply List.map_congr_left
        intro od _
        simp [Function.comp]
        omega
      · congr 1
        omega

end AbiData

namespace AbiData

theorem writeTupleSeq_split (ts : List EvmType) :
    (∀ t ∈ ts, ∀ (v : EvmValue) (w : EvmDataWriter),
      writeValue t v w =
        ⟨w.data ++ headBytes t v,
         w.offset_data ++ (pendList t v).map
           (fun od => { od with offset_position := od.offset_position + w.data.length }),
         w.selector⟩) →
    ∀ (vs : List EvmValue) (w : EvmDataWriter),
      writeTupleSeq ts vs w =
        ⟨w.data ++ tupleHeads ts vs,
         w.offset_data ++ tuplePends w.data.length ts vs,
         w.selector⟩ := by
  induction ts with
  | nil =>
    intro _ vs w
    cases vs <;> simp [writeTupleSeq, tupleHeads, tuplePends]
  | cons t rest ih =>
    intro IH vs w
    cases vs with
    | nil => simp [writeTupleSeq, tupleHeads, tuplePends]
    | cons v vrest =>
      rw [writeTupleSeq, IH t (List.mem_cons_self t rest) v w,
        ih (fun t' ht' => IH t' (List.mem_cons_of_mem t ht')) vrest]
      rw [tupleHeads, tuplePends]
      simp only [List.length_append, List.append_assoc]

end AbiData

namespace AbiData

theorem writeValue_split_aux : ∀ (fuel : Nat) (t : EvmType), sizeOf t ≤ fuel →
    ∀ (v : EvmValue) (w : EvmDataWriter),
      writeValue t v w =
        ⟨w.data ++ headBytes t v,
         w.offset_data ++ (pendList t v).map
           (fun od => { od with offset_position := od.offset_position + w.data.length }),
         w.selector⟩ := by
  intro fuel
  induction fuel with
  | zero =>
    intro t ht
    have := sizeOf_EvmType_pos t
    omega
  | succ n ih =>
    intro t ht v w
    cases t with
    | u8 =>
      cases v <;>
        simp [writeValue, write_raw_bytes, headBytes, pendList, EvmDataWriter.new]
    | uintW wd =>
      cases v <;>
        simp [writeValue, write_raw_bytes, headBytes, pendList, EvmDataWriter.new]
    | u256 =>
      cases v <;>
        simp [writeValue, write_raw_bytes, headBytes, pendList, EvmDataWriter.new]
    | boolT =>
      cases v <;>
        simp [writeValue, write_raw_bytes, headBytes, pendList, EvmDataWriter.new]
    | address =>
      cases v <;>
        simp [writeValue, write_raw_bytes, headBytes, pendList, EvmDataWriter.new]
    | h256 =>
      cases v <;>
        simp [writeValue, write_raw_bytes, headBytes, pendList, EvmDataWriter.new]
    | bytes =>
      cases v <;>
        simp [writeValue, write_raw_bytes, write_pointer, headBytes, pendList,
          EvmDataWriter.new]
    | vec t =>
      cases v <;>
        simp [writeValue, write_raw_bytes, write_pointer, headBytes, pendList,
          EvmDataWriter.new]
    | boundedVec t bound =>
      cases v <;>
        simp [writeValue, write_raw_bytes, write_pointer, headBytes, pendList,
          EvmDataWriter.new]
    | tuple ts =>
      have hts : sizeOf ts ≤ n := by
        have : sizeOf (EvmType.tuple ts) = 1 + sizeOf ts := by simp
        omega
      have hcomp : ∀ t' ∈ ts, ∀ (v' : EvmValue) (w' : EvmDataWriter),
          writeValue t' v' w' =
            ⟨w'.data ++ headBytes t' v',
             w'.offset_data ++ (pendList t' v').map
               (fun od => { od with offset_position := od.offset_position + w'.data.length }),
             w'.selector⟩ := by
        intro t' ht' v' w'
        exact ih t' (by have := sizeOf_lt_of_mem_types ht'; omega) v' w'
      cases v with
      | vtuple vs =>
        by_cases hstat : allStatic ts
        · have hsplit := writeTupleSeq_split ts hcomp vs
          have hhb : headBytes (.tuple ts) (.vtuple vs) = tupleHeads ts vs := by
            rw [headBytes, writeValue, if_pos hstat, hsplit EvmDataWriter.new]
            simp [EvmDataWriter.new]
          have hpd : pendList (.tuple ts) (.vtuple vs) = tuplePends 0 ts vs := by
            rw [pendList, writeValue, if_pos hstat, hsplit EvmDataWriter.new]
            simp [EvmDataWriter.new]
          rw [writeValue, if_pos hstat, hsplit w, hhb, hpd, tuplePends_shift]
          simp
        · rw [writeValue, if_neg hstat]
          have hhb : headBytes (.tuple ts) (.vtuple vs) = List.replicate 32 255 := by
            rw [headBytes, writeValue, if_neg hstat]
            rfl
          have hpd : pendList (.tuple ts) (.vtuple vs) =
              [⟨0, (writeTupleSeq ts vs EvmDataWriter.new).build, 0⟩] := by
            rw [pendList, writeValue, if_neg hstat]
            rfl
          rw [hhb, hpd]
          simp [write_pointer]
      | num x =>
        simp [writeValue, headBytes, pendList, EvmDataWriter.new]
      | vbool x =>
        simp [writeValue, headBytes, pendList, EvmDataWriter.new]
      | vaddress x =>
        simp [writeValue, headBytes, pendList, EvmDataWriter.new]
      | vh256 x =>
        simp [writeValue, headBytes, pendList, EvmDataWriter.new]
      | vbytes x =>
        simp [writeValue, headBytes, pendList, EvmDataWriter.new]
      | varray x =>
        simp [writeValue, headBytes, pendList, EvmDataWriter.new]

theorem writeValue_split (t : EvmType) (v : EvmValue) (w : EvmDataWriter) :
    writeValue t v w =
      ⟨w.data ++ headBytes t v,
       w.offset_data ++ (pendList t v).map
         (fun od => { od with offset_position := od.offset_position + w.data.length }),
       w.selector⟩ :=
  writeValue_split_aux (sizeOf t) t le_rfl v w

end AbiData

namespace AbiData

/-! ### Shapes of single writes: head lengths and pending entries -/

theorem tuple_static_parts (ts : List EvmType) :
    (∀ t ∈ ts, ∀ v, wfB t v = true → has_static_size t = true →
      (headBytes t v).length = headLen t ∧ pendList t v = []) →
    ∀ (vs : List EvmValue), wfPairs ts vs = true → allStatic ts = true →
      ∀ b : Nat,
        (tupleHeads ts vs).length = headLenList ts ∧ tuplePends b ts vs = [] := by
  induction ts with
  | nil =>
    intro _ vs hwf _ b
    cases vs with
    | nil => simp [tupleHeads, tuplePends, headLenList]
    | cons v vrest => simp [wfPairs] at hwf
  | cons t rest ih =>
    intro IH vs hwf hstat b
    cases vs with
    | nil => simp [wfPairs] at hwf
    | cons v vrest =>
      simp only [wfPairs, Bool.and_eq_true] at hwf
      simp only [allStatic, Bool.and_eq_true] at hstat
      obtain ⟨hhd, hpd⟩ := IH t (List.mem_cons_self t rest) v hwf.1 hstat.1
      obtain ⟨ih1, ih2⟩ := ih (fun t' ht' => IH t' (List.mem_cons_of_mem t ht'))
        vrest hwf.2 hstat.2 (b + (headBytes t v).length)
      refine ⟨?_, ?_⟩
      · rw [tupleHeads, headLenList]
        simp [hhd, ih1]
      · rw [tuplePends, hpd, ih2]
        simp

theorem writeShape_aux : ∀ (fuel : Nat) (t : EvmType), sizeOf t ≤ fuel →
    ∀ v, wfB t v = true →
      (has_static_size t = true →
        (headBytes t v).length = headLen t ∧ pendList t v = []) ∧
      (has_static_size t = false →
        headBytes t v = List.replicate 32 255 ∧
        pendList t v = [⟨0, payloadOf t v, 0⟩]) := by
  intro fuel
  induction fuel with
  | zero =>
    intro t ht
    have := sizeOf_EvmType_pos t
    omega
  | succ n ih =>
    intro t ht v hwf
    cases t with
    | u8 =>
      cases v <;> simp [wfB] at hwf <;>
        simp [has_static_size, headLen, headBytes, pendList, writeValue, write_raw_bytes,
          EvmDataWriter.new, beBytes_length]
    | uintW wd =>
      cases v <;> simp [wfB] at hwf
      have hwd : wd ≤ 32 := by rcases hwf.1 with h | h | h | h <;> omega
      simp [has_static_size, headLen, headBytes, pendList, writeValue, write_raw_bytes,
        EvmDataWriter.new, beBytes_length]
      omega
    | u256 =>
      cases v <;> simp [wfB] at hwf <;>
        simp [has_static_size, headLen, headBytes, pendList, writeValue, write_raw_bytes,
          EvmDataWriter.new, u256be, beBytes_length]
    | boolT =>
      cases v <;> simp [wfB] at hwf <;>
        simp [has_static_size, headLen, headBytes, pendList, writeValue, write_raw_bytes,
          EvmDataWriter.new]
    | address =>
      cases v <;> simp [wfB] at hwf
      simp [has_static_size, headLen, headBytes, pendList, writeValue, write_raw_bytes,
        EvmDataWriter.new]
      omega
    | h256 =>
      cases v <;> simp [wfB] at hwf
      simp [has_static_size, headLen, headBytes, pendList, writeValue, write_raw_bytes,
        EvmDataWriter.new]
      omega
    | bytes =>
      cases v <;> simp [wfB] at hwf <;>
        simp [has_static_size, headBytes, pendList, payloadOf, writeValue, write_raw_bytes,
          write_pointer, EvmDataWriter.new]
    | vec t =>
      cases v <;> simp [wfB] at hwf <;>
        simp [has_static_size, headBytes, pendList, payloadOf, writeValue, write_raw_bytes,
          write_pointer, EvmDataWriter.new]
    | boundedVec t bound =>
      cases v <;> simp [wfB] at hwf <;>
        simp [has_static_size, headBytes, pendList, payloadOf, writeValue, write_raw_bytes,
          write_pointer, EvmDataWriter.new]
    | tuple ts =>
      cases v with
      | vtuple vs =>
        simp only [wfB, Bool.and_eq_true, decide_eq_true_eq] at hwf
        have hts : sizeOf ts ≤ n := by
          have : sizeOf (EvmType.tuple ts) = 1 + sizeOf ts := by simp
          omega
        by_cases hstat : allStatic ts
        · have hsplit := writeTupleSeq_split ts
            (fun t' _ v' w' => writeValue_split t' v' w') vs
          have hhb : headBytes (.tuple ts) (.vtuple vs) = tupleHeads ts vs := by
            rw [headBytes, writeValue, if_pos hstat, hsplit EvmDataWriter.new]
            simp [EvmDataWriter.new]
          have hpd : pendList (.tuple ts) (.vtuple vs) = tuplePends 0 ts vs := by
            rw [pendList, writeValue, if_pos hstat, hsplit EvmDataWriter.new]
            simp [EvmDataWriter.new]
          have hparts := tuple_static_parts ts
            (fun t' ht' v' hwf' hs' =>
              (ih t' (by have := sizeOf_lt_of_mem_types ht'; omega) v' hwf').1 hs')
            vs hwf.2 hstat 0
          constructor
          · intro _
            rw [hhb, hpd]
            refine ⟨?_, hparts.2⟩
            rw [hparts.1, headLen, if_pos hstat]
          · intro hdyn
            rw [has_static_size, hstat] at hdyn
            simp at hdyn
        · constructor
          · intro hst
            rw [has_static_size] at hst
            simp [hstat] at hst
          · intro _
            have hhb : headBytes (.tuple ts) (.vtuple vs) = List.replicate 32 255 := by
              rw [headBytes, writeValue, if_neg hstat]
              rfl
            have hpd : pendList (.tuple ts) (.vtuple vs) =
                [⟨0, (writeTupleSeq ts vs EvmDataWriter.new).build, 0⟩] := by
              rw [pendList, writeValue, if_neg hstat]
              rfl
            refine ⟨hhb, ?_⟩
            rw [hpd]
            simp [payloadOf, hpd]
      | num x => simp [wfB] at hwf
      | vbool x => simp [wfB] at hwf
      | vaddress x => simp [wfB] at hwf
      | vh256 x => simp [wfB] at hwf
      | vbytes x => simp [wfB] at hwf
      | varray x => simp [wfB] at hwf

end AbiData

namespace AbiData

theorem writeShape_static (t : EvmType) (v : EvmValue) (hwf : wfB t v = true)
    (hs : has_static_size t = true) :
    (headBytes t v).length = headLen t ∧ pendList t v = [] :=
  (writeShape_aux (sizeOf t) t le_rfl v hwf).1 hs

theorem writeShape_dyn (t : EvmType) (v : EvmValue) (hwf : wfB t v = true)
    (hd : has_static_size t = false) :
    headBytes t v = List.replicate 32 255 ∧
    pendList t v = [⟨0, payloadOf t v, 0⟩] :=
  (writeShape_aux (sizeOf t) t le_rfl v hwf).2 hd

theorem headLen_of_dyn (t : EvmType) (hd : has_static_size t = false) :
    headLen t = 32 := by
  cases t with
  | tuple ts =>
    rw [has_static_size] at hd
    simp [headLen, hd]
  | u8 => exact absurd hd (by simp [has_static_size])
  | uintW w => exact absurd hd (by simp [has_static_size])
  | u256 => exact absurd hd (by simp [has_static_size])
  | boolT => exact absurd hd (by simp [has_static_size])
  | address => exact absurd hd (by simp [has_static_size])
  | h256 => exact absurd hd (by simp [has_static_size])
  | bytes => simp [headLen]
  | vec t => simp [headLen]
  | boundedVec t n => simp [headLen]

theorem headBytes_len (t : EvmType) (v : EvmValue) (hwf : wfB t v = true) :
    (headBytes t v).length = headLen t := by
  by_cases hs : has_static_size t
  · exact (writeShape_static t v hwf hs).1
  · rw [(writeShape_dyn t v hwf (by simpa using hs)).1, headLen_of_dyn t (by simpa using hs)]
    simp

theorem headLen_pos_aux : ∀ (fuel : Nat) (t : EvmType), sizeOf t ≤ fuel →
    ∀ v, wfB t v = true → 32 ≤ headLen t := by
  intro fuel
  induction fuel with
  | zero =>
    intro t ht
    have := sizeOf_EvmType_pos t
    omega
  | succ n ih =>
    intro t ht v hwf
    cases t with
    | tuple ts =>
      by_cases hstat : allStatic ts
      · rw [headLen, if_pos hstat]
        cases v with
        | vtuple vs =>
          simp only [wfB, Bool.and_eq_true, decide_eq_true_eq] at hwf
          cases ts with
          | nil => simp at hwf
          | cons t1 rest =>
            cases vs with
            | nil => simp [wfPairs] at hwf
            | cons v1 vrest =>
              simp only [wfPairs, Bool.and_eq_true] at hwf
              have h1 : 32 ≤ headLen t1 := by
                refine ih t1 ?_ v1 hwf.2.1
                have h2 : sizeOf t1 < sizeOf (t1 :: rest) :=
                  sizeOf_lt_of_mem_types (List.mem_cons_self t1 rest)
                have h3 : sizeOf (EvmType.tuple (t1 :: rest)) = 1 + sizeOf (t1 :: rest) := by
                  simp
                omega
              rw [headLenList]
              omega
        | num x => simp [wfB] at hwf
        | vbool x => simp [wfB] at hwf
        | vaddress x => simp [wfB] at hwf
        | vh256 x => simp [wfB] at hwf
        | vbytes x => simp [wfB] at hwf
        | varray x => simp [wfB] at hwf
      · simp [headLen, hstat]
    | u8 => simp [headLen]
    | uintW w => simp [headLen]
    | u256 => simp [headLen]
    | boolT => simp [headLen]
    | address => simp [headLen]
    | h256 => simp [headLen]
    | bytes => simp [headLen]
    | vec t => simp [headLen]
    | boundedVec t bound => simp [headLen]

theorem headLen_pos (t : EvmType) (v : EvmValue) (hwf : wfB t v = true) :
    32 ≤ headLen t :=
  headLen_pos_aux (sizeOf t) t le_rfl v hwf

theorem writeItems_split (t : EvmType) : ∀ (vs : List EvmValue) (inner : EvmDataWriter),
    writeItems t vs inner =
      ⟨inner.data ++ itemsHeads t vs,
       inner.offset_data ++ itemsPends t inner.data.length vs,
       inner.selector⟩ := by
  intro vs
  induction vs with
  | nil => intro inner; simp [writeItems, itemsHeads, itemsPends]
  | cons v rest ih =>
    intro inner
    rw [writeItems, ih]
    rw [itemsHeads, itemsPends]
    simp only [List.length_append, List.append_assoc]
    rfl

end AbiData

namespace AbiData

/-! ### Slot views of the spliced writers -/

theorem itemsParts_slots (t : EvmType) : ∀ (vs : List EvmValue) (b : Nat),
    wfList t vs = true →
    itemsHeads t vs = slotData (slotsOfItems t vs) ∧
    itemsPends t b vs = slotOds 32 b (slotsOfItems t vs) := by
  intro vs
  induction vs with
  | nil => intro b _; simp [itemsHeads, itemsPends, slotsOfItems, slotData, slotOds]
  | cons v rest ih =>
    intro b hwf
    simp only [wfList, Bool.and_eq_true] at hwf
    obtain ⟨ih1, ih2⟩ := ih (b + (headBytes t v).length) hwf.2
    rw [itemsHeads, itemsPends, slotsOfItems, List.map_cons, slotOfVal]
    by_cases hs : has_static_size t
    · rw [if_pos hs]
      obtain ⟨hlen, hpd⟩ := writeShape_static t v hwf.1 hs
      rw [slotData, slotOds, hpd]
      refine ⟨by rw [ih1, slotsOfItems], ?_⟩
      simp only [List.map_nil, List.nil_append]
      rw [ih2, slotsOfItems]
    · rw [if_neg hs]
      obtain ⟨hhb, hpd⟩ := writeShape_dyn t v hwf.1 (by simpa using hs)
      have h32 : (headBytes t v).length = 32 := by rw [hhb]; simp
      rw [h32] at ih2
      rw [slotData, slotOds, hpd, hhb]
      constructor
      · rw [ih1, slotsOfItems]
      · simp only [List.map_cons, List.map_nil, List.length_replicate]
        rw [ih2, slotsOfItems]
        simp

theorem tupleParts_slots : ∀ (ts : List EvmType) (vs : List EvmValue) (b : Nat),
    wfPairs ts vs = true →
    tupleHeads ts vs = slotData (slotsOfTuple ts vs) ∧
    tuplePends b ts vs = slotOds 0 b (slotsOfTuple ts vs) := by
  intro ts
  induction ts with
  | nil =>
    intro vs b hwf
    cases vs with
    | nil => simp [tupleHeads, tuplePends, slotsOfTuple, slotData, slotOds]
    | cons v vrest => simp [wfPairs] at hwf
  | cons t rest ih =>
    intro vs b hwf
    cases vs with
    | nil => simp [wfPairs] at hwf
    | cons v vrest =>
      simp only [wfPairs, Bool.and_eq_true] at hwf
      obtain ⟨ih1, ih2⟩ := ih vrest (b + (headBytes t v).length) hwf.2
      rw [tupleHeads, tuplePends, slotsOfTuple, slotOfVal]
      by_cases hs : has_static_size t
      · rw [if_pos hs]
        obtain ⟨hlen, hpd⟩ := writeShape_static t v hwf.1 hs
        rw [slotData, slotOds, hpd]
        refine ⟨by rw [ih1], ?_⟩
        simp only [List.map_nil, List.nil_append]
        rw [ih2]
      · rw [if_neg hs]
        obtain ⟨hhb, hpd⟩ := writeShape_dyn t v hwf.1 (by simpa using hs)
        have h32 : (headBytes t v).length = 32 := by rw [hhb]; simp
        rw [h32] at ih2
        rw [slotData, slotOds, hpd, hhb]
        constructor
        · rw [ih1]
        · simp only [List.map_cons, List.map_nil, List.length_replicate]
          rw [ih2]
          simp

/-! ### The bake pass over a slot layout -/

theorem writeWordAt_append_left (A Y w : List Nat) :
    writeWordAt (A ++ Y) A.length w = A ++ (w ++ Y.drop 32) := by
  rw [writeWordAt, List.take_left]
  rw [drop_append_ge _ _ _ (by omega)]
  have h32 : A.length + 32 - A.length = 32 := by omega
  rw [h32]
  simp [List.append_assoc]

theorem bake_slots (s : Nat) (hs : s ≤ 32) : ∀ (sl : List Slot) (A T : List Nat),
    bake_offsets (A ++ (slotData sl ++ T)) (slotOds s A.length sl)
      = A ++ (slotHeads (A.length + (slotData sl).length + T.length - s) sl
          ++ (T ++ slotTails sl)) := by
  intro sl
  induction sl with
  | nil =>
    intro A T
    simp [slotData, slotOds, slotHeads, slotTails, bake_offsets]
  | cons slot rest ih =>
    intro A T
    cases slot with
    | stat h =>
      rw [slotData, slotOds, slotHeads, slotTails]
      have hre : A ++ ((h ++ slotData rest) ++ T) = (A ++ h) ++ (slotData rest ++ T) := by
        simp [List.append_assoc]
      have hlen : A.length + h.length = (A ++ h).length := by simp
      rw [hre, hlen, ih (A ++ h) T]
      have harith : (A ++ h).length + (slotData rest).length + T.length - s
          = A.length + (h.length + (slotData rest).length) + T.length - s := by
        simp
        omega
      rw [harith]
      simp [List.append_assoc]
    | dyn p =>
      rw [slotData, slotOds, slotHeads, slotTails, bake_offsets]
      have hre : A ++ ((List.replicate 32 255 ++ slotData rest) ++ T)
          = A ++ (List.replicate 32 255 ++ (slotData rest ++ T)) := by
        simp [List.append_assoc]
      rw [hre, writeWordAt_append_left]
      have hdrop : (List.replicate 32 255 ++ (slotData rest ++ T)).drop 32
          = slotData rest ++ T := by
        rw [drop_append_ge _ _ _ (by simp)]
        simp
      rw [hdrop]
      have hlen : (A ++ (List.replicate 32 255 ++ (slotData rest ++ T))).length
          = A.length + 32 + (slotData rest).length + T.length := by
        simp
        omega
      rw [hlen]
      set F := A.length + 32 + (slotData rest).length + T.length - s with hF
      have hre2 : (A ++ (u256be F ++ (slotData rest ++ T))) ++ p
          = (A ++ u256be F) ++ (slotData rest ++ (T ++ p)) := by
        simp [List.append_assoc]
      rw [hre2]
      have hpos : A.length + 32 = (A ++ u256be F).length := by
        simp [u256be_length]
      rw [hpos, ih _ (T ++ p)]
      have harith : (A ++ u256be F).length + (slotData rest).length + (T ++ p).length - s
          = F + p.length := by
        simp only [List.length_append, u256be_length, hF]
        omega
      rw [harith]
      have harith2 : A.length + (List.replicate 32 255 ++ slotData rest).length
            + T.length - s = F := by
        simp only [List.length_append, List.length_replicate]
        omega
      rw [harith2]
      simp [List.append_assoc]

end AbiData

namespace AbiData

/-! ### Closed forms of the deferred payloads -/

theorem slotHeads_length : ∀ (sl : List Slot) (f : Nat),
    (slotHeads f sl).length = (slotData sl).length := by
  intro sl
  induction sl with
  | nil => intro f; simp [slotHeads, slotData]
  | cons slot rest ih =>
    intro f
    cases slot with
    | stat h => simp [slotHeads, slotData, ih]
    | dyn p =>
      simp [slotHeads, slotData, ih, u256be_length]
      omega

theorem payload_bytes (b : List Nat) :
    payloadOf .bytes (.vbytes b) =
      u256be b.length ++ (b ++ List.replicate (((b.length + 31) / 32) * 32 - b.length) 0) := by
  rw [payloadOf, pendList, writeValue]
  simp only [write_pointer, write_raw_bytes, EvmDataWriter.new, EvmDataWriter.build,
    bake_offsets, padded_size_eq, List.nil_append, List.headD]

theorem payload_vec (t : EvmType) (vs : List EvmValue) (hwf : wfList t vs = true) :
    payloadOf (.vec t) (.varray vs) =
      u256be vs.length ++
        (slotHeads (slotData (slotsOfItems t vs)).length (slotsOfItems t vs)
          ++ slotTails (slotsOfItems t vs)) := by
  obtain ⟨hih, hip⟩ := itemsParts_slots t vs 32 hwf
  rw [payloadOf, pendList, writeValue, writeItems_split]
  simp only [write_pointer, write_raw_bytes, EvmDataWriter.new, List.nil_append,
    List.headD, u256be_length, List.append_nil]
  rw [hih, hip]
  have hb := bake_slots 32 le_rfl (slotsOfItems t vs) (u256be vs.length) []
  rw [u256be_length] at hb
  simp only [List.append_nil, List.length_nil, Nat.add_zero] at hb
  have harith : 32 + (slotData (slotsOfItems t vs)).length - 32
      = (slotData (slotsOfItems t vs)).length := by omega
  rw [harith] at hb
  rw [EvmDataWriter.build]
  simp only
  exact hb

theorem payload_boundedVec (t : EvmType) (bound : Nat) (vs : List EvmValue)
    (hwf : wfList t vs = true) :
    payloadOf (.boundedVec t bound) (.varray vs) =
      u256be vs.length ++
        (slotHeads (slotData (slotsOfItems t vs)).length (slotsOfItems t vs)
          ++ slotTails (slotsOfItems t vs)) := by
  obtain ⟨hih, hip⟩ := itemsParts_slots t vs 32 hwf
  rw [payloadOf, pendList, writeValue, writeItems_split]
  simp only [write_pointer, write_raw_bytes, EvmDataWriter.new, List.nil_append,
    List.headD, u256be_length, List.append_nil]
  rw [hih, hip]
  have hb := bake_slots 32 le_rfl (slotsOfItems t vs) (u256be vs.length) []
  rw [u256be_length] at hb
  simp only [List.append_nil, List.length_nil, Nat.add_zero] at hb
  have harith : 32 + (slotData (slotsOfItems t vs)).length - 32
      = (slotData (slotsOfItems t vs)).length := by omega
  rw [harith] at hb
  rw [EvmDataWriter.build]
  simp only
  exact hb

theorem payload_tuple_dyn (ts : List EvmType) (vs : List EvmValue)
    (hwf : wfPairs ts vs = true) (hdyn : allStatic ts = false) :
    payloadOf (.tuple ts) (.vtuple vs) =
      slotHeads (slotData (slotsOfTuple ts vs)).length (slotsOfTuple ts vs)
        ++ slotTails (slotsOfTuple ts vs) := by
  obtain ⟨hth, htp⟩ := tupleParts_slots ts vs 0 hwf
  rw [payloadOf, pendList, writeValue, if_neg (by rw [hdyn]; simp)]
  simp only [write_pointer, EvmDataWriter.new, List.nil_append, List.headD]
  rw [writeTupleSeq_split ts (fun t' _ v' w' => writeValue_split t' v' w') vs]
  rw [EvmDataWriter.build]
  simp only [EvmDataWriter.new, List.nil_append, List.length_nil]
  rw [hth, htp]
  have hb := bake_slots 0 (by omega) (slotsOfTuple ts vs) [] []
  simp only [List.nil_append, List.append_nil, List.length_nil, Nat.add_zero,
    Nat.zero_add, Nat.sub_zero] at hb
  exact hb

end AbiData

namespace AbiData

/-! ### Read-side helpers for the round-trip -/

theorem readBytesAs_ok_at (B : List Nat) (c len : Nat) (msg : String)
    (h : c + len ≤ B.length) (hf : c + len < USIZE) :
    readBytesAs ⟨B, c⟩ len msg = (.ok ((B.drop c).take len), ⟨B, c + len⟩) := by
  rw [readBytesAs_eq]
  simp only
  rw [if_pos hf, if_pos h]

theorem headBytes_u8 (n : Nat) :
    headBytes .u8 (.num n) = List.replicate 31 0 ++ beBytes 1 n := by
  rw [headBytes, writeValue]
  rfl

theorem headBytes_uintW (w n : Nat) :
    headBytes (.uintW w) (.num n) = List.replicate (32 - w) 0 ++ beBytes w n := by
  rw [headBytes, writeValue]
  rfl

theorem headBytes_u256 (n : Nat) : headBytes .u256 (.num n) = u256be n := by
  rw [headBytes, writeValue]
  rfl

theorem headBytes_bool (b : Bool) :
    headBytes .boolT (.vbool b) = List.replicate 31 0 ++ [if b then 1 else 0] := by
  rw [headBytes, writeValue]
  rfl

theorem headBytes_address (a : List Nat) :
    headBytes .address (.vaddress a) = List.replicate 12 0 ++ a := by
  rw [headBytes, writeValue]
  rfl

theorem headBytes_h256 (h : List Nat) : headBytes .h256 (.vh256 h) = h := by
  rw [headBytes, writeValue]
  rfl

theorem u8_decode (n : Nat) (h : n < 256) :
    (List.replicate 31 0 ++ beBytes 1 n).getD 31 0 = n := by
  rw [getD_append_ge _ _ 0 31 (by simp)]
  simp [beBytes]
  omega

theorem uintW_decode (w n : Nat) (hw : w ≤ 32) (h : n < 256 ^ w) :
    beVal ((List.replicate (32 - w) 0 ++ beBytes w n).drop (32 - w)) = n := by
  rw [drop_append_ge _ _ _ (by simp)]
  simp [beVal_beBytes]
  exact Nat.mod_eq_of_lt h

theorem bool_decode (b : Bool) :
    (!((List.replicate 31 0 ++ [if b then 1 else 0]).all (fun x => x == 0))) = b := by
  cases b <;> simp

theorem address_decode (a : List Nat) (ha : a.length = 20) :
    ((List.replicate 12 0 ++ a).drop 12).take 20 = a := by
  rw [drop_append_ge _ _ _ (by simp)]
  simp [List.take_of_length_le (le_of_eq ha)]

end AbiData

namespace AbiData

theorem readTupleOk (ts : List EvmType) :
    (∀ t ∈ ts, ∀ (v : EvmValue) (B : List Nat) (c : Nat),
      wfB t v = true → HeadAt B c t v → B.length + 32 < USIZE →
      readValue t ⟨B, c⟩ = (.ok v, ⟨B, c + headLen t⟩)) →
    ∀ (vs : List EvmValue) (D : List Nat) (c : Nat),
      wfPairs ts vs = true → TupleAt D c ts vs → D.length + 32 < USIZE →
      readTupleSeq ts ⟨D, c⟩ = (.ok vs, ⟨D, c + headLenList ts⟩) := by
  induction ts with
  | nil =>
    intro _ vs D c hwf _ _
    cases vs with
    | nil =>
      rw [readTupleSeq]
      simp [headLenList]
    | cons v vrest => simp [wfPairs] at hwf
  | cons t rest ih =>
    intro IH vs D c hwf hat hfit
    cases vs with
    | nil => simp [wfPairs] at hwf
    | cons v vrest =>
      simp only [wfPairs, Bool.and_eq_true] at hwf
      simp only [TupleAt] at hat
      obtain ⟨h1, h2⟩ := hat
      have e1 := IH t (List.mem_cons_self t rest) v D c hwf.1 h1 hfit
      have e2 := ih (fun t' ht' => IH t' (List.mem_cons_of_mem t ht'))
        vrest D (c + headLen t) hwf.2 h2 hfit
      rw [readTupleSeq]
      simp only [e1, e2]
      rw [headLenList]
      simp [Nat.add_assoc]

theorem readItemsOk (t : EvmType) :
    (∀ (v : EvmValue) (B : List Nat) (c : Nat),
      wfB t v = true → HeadAt B c t v → B.length + 32 < USIZE →
      readValue t ⟨B, c⟩ = (.ok v, ⟨B, c + headLen t⟩)) →
    ∀ (vs : List EvmValue) (E : List Nat) (c : Nat),
      wfList t vs = true → ItemsAt E c t vs → E.length + 32 < USIZE →
      readItems t vs.length ⟨E, c⟩ = (.ok vs, ⟨E, c + vs.length * headLen t⟩) := by
  intro IH vs
  induction vs with
  | nil =>
    intro E c _ _ _
    rw [List.length_nil, readItems]
    simp
  | cons v vrest ih =>
    intro E c hwf hit hfit
    simp only [wfList, Bool.and_eq_true] at hwf
    simp only [ItemsAt] at hit
    obtain ⟨h1, h2⟩ := hit
    have e1 := IH v E c hwf.1 h1 hfit
    have e2 := ih E (c + headLen t) hwf.2 h2 hfit
    rw [List.length_cons, readItems]
    simp only [e1, e2]
    have harith : c + headLen t + vrest.length * headLen t
        = c + (vrest.length + 1) * headLen t := by ring
    rw [harith]

end AbiData

namespace AbiData

/-- Main decoder correctness: a buffer that holds a valid head for `v` at cursor `c`
decodes to `v`, with the cursor advanced by the head length. -/
theorem ReadOkAux : ∀ (fuel : Nat) (t : EvmType), sizeOf t ≤ fuel →
    ∀ (v : EvmValue) (B : List Nat) (c : Nat),
      wfB t v = true → HeadAt B c t v → B.length + 32 < USIZE →
      readValue t ⟨B, c⟩ = (.ok v, ⟨B, c + headLen t⟩) := by
  intro fuel
  induction fuel with
  | zero =>
    intro t ht
    have := sizeOf_EvmType_pos t
    omega
  | succ n ih =>
    intro t ht v B c hwf hH hB
    cases t with
    | u8 =>
      simp only [HeadAt] at hH
      obtain ⟨hc, hslice⟩ := hH
      cases v with
      | num x =>
        simp only [wfB, decide_eq_true_eq] at hwf
        have hrb := readBytesAs_ok_at B c 32 "tried to parse u64 out of bounds"
          hc (by omega)
        rw [readValue]
        simp only [hrb]
        rw [hslice, headBytes_u8, u8_decode x hwf]
        simp [headLen]
      | vbool x => simp [wfB] at hwf
      | vaddress x => simp [wfB] at hwf
      | vh256 x => simp [wfB] at hwf
      | vbytes x => simp [wfB] at hwf
      | varray x => simp [wfB] at hwf
      | vtuple x => simp [wfB] at hwf
    | uintW w =>
      simp only [HeadAt] at hH
      obtain ⟨hc, hslice⟩ := hH
      cases v with
      | num x =>
        simp only [wfB, Bool.and_eq_true, Bool.or_eq_true, beq_iff_eq,
          decide_eq_true_eq] at hwf
        have hw32 : w ≤ 32 := by rcases hwf.1 with h | h | h | h <;> omega
        have hrb := readBytesAs_ok_at B c 32
          ("tried to parse " ++ uintName w ++ " out of bounds") hc (by omega)
        rw [readValue]
        simp only [hrb]
        rw [hslice, headBytes_uintW, uintW_decode w x hw32 hwf.2]
        simp [headLen]
      | vbool x => simp [wfB] at hwf
      | vaddress x => simp [wfB] at hwf
      | vh256 x => simp [wfB] at hwf
      | vbytes x => simp [wfB] at hwf
      | varray x => simp [wfB] at hwf
      | vtuple x => simp [wfB] at hwf
    | u256 =>
      simp only [HeadAt] at hH
      obtain ⟨hc, hslice⟩ := hH
      cases v with
      | num x =>
        simp only [wfB, decide_eq_true_eq] at hwf
        have hrb := readBytesAs_ok_at B c 32 "tried to parse U256 out of bounds"
          hc (by omega)
        rw [readValue, readU256]
        simp only [hrb]
        rw [hslice, headBytes_u256, beVal_u256be x hwf]
        simp [headLen]
      | vbool x => simp [wfB] at hwf
      | vaddress x => simp [wfB] at hwf
      | vh256 x => simp [wfB] at hwf
      | vbytes x => simp [wfB] at hwf
      | varray x => simp [wfB] at hwf
      | vtuple x => simp [wfB] at hwf
    | boolT =>
      simp only [HeadAt] at hH
      obtain ⟨hc, hslice⟩ := hH
      cases v with
      | vbool x =>
        have hrb := readBytesAs_ok_at B c 32 "tried to parse H256 out of bounds"
          hc (by omega)
        rw [readValue]
        simp only [hrb]
        rw [hslice, headBytes_bool, bool_decode x]
        simp [headLen]
      | num x => simp [wfB] at hwf
      | vaddress x => simp [wfB] at hwf
      | vh256 x => simp [wfB] at hwf
      | vbytes x => simp [wfB] at hwf
      | varray x => simp [wfB] at hwf
      | vtuple x => simp [wfB] at hwf
    | address =>
      simp only [HeadAt] at hH
      obtain ⟨hc, hslice⟩ := hH
      cases v with
      | vaddress a =>
        simp only [wfB, Bool.and_eq_true, beq_iff_eq] at hwf
        have hrb := readBytesAs_ok_at B c 32 "tried to parse H160 out of bounds"
          hc (by omega)
        rw [readValue]
        simp only [hrb]
        rw [hslice, headBytes_address, address_decode a hwf.1]
        simp [headLen]
      | num x => simp [wfB] at hwf
      | vbool x => simp [wfB] at hwf
      | vh256 x => simp [wfB] at hwf
      | vbytes x => simp [wfB] at hwf
      | varray x => simp [wfB] at hwf
      | vtuple x => simp [wfB] at hwf
    | h256 =>
      simp only [HeadAt] at hH
      obtain ⟨hc, hslice⟩ := hH
      cases v with
      | vh256 hh =>
        have hrb := readBytesAs_ok_at B c 32 "tried to parse H256 out of bounds"
          hc (by omega)
        rw [readValue]
        simp only [hrb]
        rw [hslice, headBytes_h256]
        simp [headLen]
      | num x => simp [wfB] at hwf
      | vbool x => simp [wfB] at hwf
      | vaddress x => simp [wfB] at hwf
      | vbytes x => simp [wfB] at hwf
      | varray x => simp [wfB] at hwf
      | vtuple x => simp [wfB] at hwf
    | bytes =>
      simp only [HeadAt] at hH
      obtain ⟨p, hc, hslice, hpfit, hplt, hpay⟩ := hH
      cases v with
      | vbytes b =>
        simp only [PayloadBody] at hpay
        have htklen : (32 : Nat) + b.length ≤ (B.drop p).length := by
          have h1 : ((B.drop p).take (32 + b.length)).length
              = (u256be b.length ++ b).length := by rw [hpay]
          simp only [List.length_take, List.length_append, u256be_length] at h1
          omega
        have hlen32 : (B.drop p).take 32 = u256be b.length := by
          have h1 : ((B.drop p).take (32 + b.length)).take 32 = (u256be b.length ++ b).take 32 := by
            rw [hpay]
          rw [List.take_take, min_eq_left (by omega), take32_word] at h1
          exact h1
        have hLfit : b.length + 32 < USIZE := by
          have h2 : (B.drop p).length ≤ B.length := by
            simp [List.length_drop]
          omega
        rw [readValue_bytes_ok B c p b.length (B.drop p) hc (by omega) hslice hpfit hplt
          rfl hlen32 hLfit htklen]
        have hval : ((B.drop p).drop 32).take b.length = b := by
          have h1 : ((B.drop p).take (32 + b.length)).drop 32 = (u256be b.length ++ b).drop 32 := by
            rw [hpay]
          rw [List.drop_take, drop32_word] at h1
          have harg : 32 + b.length - 32 = b.length := by omega
          rw [harg] at h1
          exact h1
        rw [hval]
        simp [headLen]
      | num x => simp [wfB] at hwf
      | vbool x => simp [wfB] at hwf
      | vaddress x => simp [wfB] at hwf
      | vh256 x => simp [wfB] at hwf
      | varray x => simp [wfB] at hwf
      | vtuple x => simp [wfB] at hwf
    | vec te =>
      simp only [HeadAt] at hH
      obtain ⟨p, hc, hslice, hpfit, hplt, hpay⟩ := hH
      cases v with
      | varray vs =>
        simp only [wfB, Bool.and_eq_true, decide_eq_true_eq] at hwf
        simp only [PayloadBody] at hpay
        obtain ⟨h32D, hlen32, hitems⟩ := hpay
        have hDB : (B.drop p).length ≤ B.length := by simp [List.length_drop]
        have hrp := read_pointer_ok B c p hc (by omega) hslice hpfit hplt
        have hru : readU256 ⟨B.drop p, 0⟩ = (.ok vs.length, ⟨B.drop p, 32⟩) := by
          rw [readU256_eq]
          simp only [List.drop_zero, Nat.zero_add]
          rw [if_pos (by simpa using USIZE_big), if_pos (by omega), hlen32,
            beVal_u256be vs.length (lt_u256_of_lt_USIZE hwf.1)]
        have hIH : ∀ (v' : EvmValue) (B' : List Nat) (c' : Nat),
            wfB te v' = true → HeadAt B' c' te v' → B'.length + 32 < USIZE →
            readValue te ⟨B', c'⟩ = (.ok v', ⟨B', c' + headLen te⟩) := by
          intro v' B' c' h1 h2 h3
          refine ih te ?_ v' B' c' h1 h2 h3
          have : sizeOf (EvmType.vec te) = 1 + sizeOf te := by simp
          omega
        have hitemsE := readItemsOk te hIH vs ((B.drop p).drop 32) 0 hwf.2 hitems
          (by simp only [List.length_drop]; omega)
        rw [readValue, hrp]
        simp only [hru, hitemsE]
        rw [if_neg (show ¬ vs.length ≥ USIZE by omega), if_pos h32D]
        simp [headLen]
      | num x => simp [wfB] at hwf
      | vbool x => simp [wfB] at hwf
      | vaddress x => simp [wfB] at hwf
      | vh256 x => simp [wfB] at hwf
      | vbytes x => simp [wfB] at hwf
      | vtuple x => simp [wfB] at hwf
    | boundedVec te bound =>
      simp only [HeadAt] at hH
      obtain ⟨p, hc, hslice, hpfit, hplt, hpay⟩ := hH
      cases v with
      | varray vs =>
        simp only [wfB, Bool.and_eq_true, decide_eq_true_eq] at hwf
        simp only [PayloadBody] at hpay
        obtain ⟨h32D, hlen32, hitems⟩ := hpay
        have hDB : (B.drop p).length ≤ B.length := by simp [List.length_drop]
        have hrp := read_pointer_ok B c p hc (by omega) hslice hpfit hplt
        have hru : readU256 ⟨B.drop p, 0⟩ = (.ok vs.length, ⟨B.drop p, 32⟩) := by
          rw [readU256_eq]
          simp only [List.drop_zero, Nat.zero_add]
          rw [if_pos (by simpa using USIZE_big), if_pos (by omega), hlen32,
            beVal_u256be vs.length (lt_u256_of_lt_USIZE hwf.1.2)]
        have hIH : ∀ (v' : EvmValue) (B' : List Nat) (c' : Nat),
            wfB te v' = true → HeadAt B' c' te v' → B'.length + 32 < USIZE →
            readValue te ⟨B', c'⟩ = (.ok v', ⟨B', c' + headLen te⟩) := by
          intro v' B' c' h1 h2 h3
          refine ih te ?_ v' B' c' h1 h2 h3
          have : sizeOf (EvmType.boundedVec te bound) = 1 + sizeOf te + sizeOf bound := by
            simp
          omega
        have hitemsE := readItemsOk te hIH vs ((B.drop p).drop 32) 0 hwf.2 hitems
          (by simp only [List.length_drop]; omega)
        rw [readValue, hrp]
        simp only [hru, hitemsE]
        rw [if_neg (show ¬ vs.length ≥ USIZE by omega),
          if_neg (show ¬ vs.length > bound by omega), if_pos h32D]
        simp [headLen]
      | num x => simp [wfB] at hwf
      | vbool x => simp [wfB] at hwf
      | vaddress x => simp [wfB] at hwf
      | vh256 x => simp [wfB] at hwf
      | vbytes x => simp [wfB] at hwf
      | vtuple x => simp [wfB] at hwf
    | tuple ts =>
      cases v with
      | vtuple vs =>
        simp only [wfB, Bool.and_eq_true, decide_eq_true_eq] at hwf
        have hIH : ∀ t' ∈ ts, ∀ (v' : EvmValue) (B' : List Nat) (c' : Nat),
            wfB t' v' = true → HeadAt B' c' t' v' → B'.length + 32 < USIZE →
            readValue t' ⟨B', c'⟩ = (.ok v', ⟨B', c' + headLen t'⟩) := by
          intro t' ht' v' B' c' h1 h2 h3
          refine ih t' ?_ v' B' c' h1 h2 h3
          have h4 := sizeOf_lt_of_mem_types ht'
          have h5 : sizeOf (EvmType.tuple ts) = 1 + sizeOf ts := by simp
          omega
        by_cases hstat : allStatic ts
        · simp only [HeadAt, if_pos hstat] at hH
          have e1 := readTupleOk ts hIH vs B c hwf.2 hH hB
          rw [readValue, if_pos hstat]
          simp only [e1]
          rw [headLen, if_pos hstat]
        · simp only [HeadAt, if_neg hstat] at hH
          obtain ⟨p, hc, hslice, hpfit, hplt, hpay⟩ := hH
          simp only [PayloadBody] at hpay
          have hDB : (B.drop p).length ≤ B.length := by simp [List.length_drop]
          have hrp := read_pointer_ok B c p hc (by omega) hslice hpfit hplt
          have e1 := readTupleOk ts hIH vs (B.drop p) 0 hwf.2 hpay (by omega)
          rw [readValue, if_neg hstat, hrp]
          simp only [e1]
          rw [headLen, if_neg hstat]
      | num x => simp [wfB] at hwf
      | vbool x => simp [wfB] at hwf
      | vaddress x => simp [wfB] at hwf
      | vh256 x => simp [wfB] at hwf
      | vbytes x => simp [wfB] at hwf
      | varray x => simp [wfB] at hwf

end AbiData

namespace AbiData

/-! ### Building `HeadAt` facts for writer output -/

theorem HeadAt_dyn_intro (t : EvmType) (v : EvmValue) (B : List Nat) (c : Nat)
    (hwf : wfB t v = true) (hdyn : has_static_size t = false)
    (h : ∃ p, c + 32 ≤ B.length ∧ (B.drop c).take 32 = u256be p ∧ p < USIZE ∧
      p < B.length ∧ PayloadBody (B.drop p) t v) :
    HeadAt B c t v := by
  cases t with
  | bytes => simp only [HeadAt]; exact h
  | vec te => simp only [HeadAt]; exact h
  | boundedVec te bound => simp only [HeadAt]; exact h
  | tuple ts =>
    cases v with
    | vtuple vs =>
      rw [has_static_size] at hdyn
      simp [HeadAt, hdyn]
      obtain ⟨p, h1, h2, h3, h4, h5⟩ := h
      exact ⟨h1, p, h2, h3, h4, h5⟩
    | num x => simp [wfB] at hwf
    | vbool x => simp [wfB] at hwf
    | vaddress x => simp [wfB] at hwf
    | vh256 x => simp [wfB] at hwf
    | vbytes x => simp [wfB] at hwf
    | varray x => simp [wfB] at hwf
  | u8 => simp [has_static_size] at hdyn
  | uintW w => simp [has_static_size] at hdyn
  | u256 => simp [has_static_size] at hdyn
  | boolT => simp [has_static_size] at hdyn
  | address => simp [has_static_size] at hdyn
  | h256 => simp [has_static_size] at hdyn

theorem tupleAt_of_slices : ∀ (ts : List EvmType),
    (∀ t ∈ ts, ∀ v, wfB t v = true → has_static_size t = true →
      ∀ (B : List Nat) (c : Nat), c + headLen t ≤ B.length →
      (B.drop c).take (headLen t) = headBytes t v → HeadAt B c t v) →
    ∀ (vs : List EvmValue) (B : List Nat) (c : Nat),
      wfPairs ts vs = true → allStatic ts = true →
      c + headLenList ts ≤ B.length →
      (B.drop c).take (headLenList ts) = tupleHeads ts vs →
      TupleAt B c ts vs := by
  intro ts
  induction ts with
  | nil =>
    intro _ vs B c hwf _ _ _
    cases vs with
    | nil => simp [TupleAt]
    | cons v vrest => simp [wfPairs] at hwf
  | cons t rest ih =>
    intro IH vs B c hwf hstat hlen hslice
    cases vs with
    | nil => simp [wfPairs] at hwf
    | cons v vrest =>
      simp only [wfPairs, Bool.and_eq_true] at hwf
      simp only [allStatic, Bool.and_eq_true] at hstat
      have hhbl : (headBytes t v).length = headLen t :=
        (writeShape_static t v hwf.1 hstat.1).1
      rw [headLenList] at hlen
      rw [headLenList, tupleHeads] at hslice
      simp only [TupleAt]
      constructor
      · refine IH t (List.mem_cons_self t rest) v hwf.1 hstat.1 B c (by omega) ?_
        have h1 : ((B.drop c).take (headLen t + headLenList rest)).take (headLen t)
            = (headBytes t v ++ tupleHeads rest vrest).take (headLen t) := by
          rw [hslice]
        rw [List.take_take, min_eq_left (by omega)] at h1
        rw [h1, ← hhbl, List.take_left]
      · refine ih (fun t' ht' => IH t' (List.mem_cons_of_mem t ht'))
          vrest B (c + headLen t) hwf.2 hstat.2 (by omega) ?_
        have hrhs : (headBytes t v ++ tupleHeads rest vrest).drop (headLen t)
            = tupleHeads rest vrest := by
          rw [← hhbl, drop_append_ge _ _ _ (le_refl _)]
          simp
        have h1 : ((B.drop c).take (headLen t + headLenList rest)).drop (headLen t)
            = tupleHeads rest vrest := by
          rw [hslice, hrhs]
        rw [List.drop_take] at h1
        have harg : headLen t + headLenList rest - headLen t = headLenList rest := by
          omega
        rw [harg] at h1
        have h2 : (B.drop c).drop (headLen t) = B.drop (c + headLen t) := by
          rw [List.drop_drop, Nat.add_comm]
        rw [← h2]
        exact h1

theorem StaticHeadAtAux : ∀ (fuel : Nat) (t : EvmType), sizeOf t ≤ fuel →
    ∀ v, wfB t v = true → has_static_size t = true →
    ∀ (B : List Nat) (c : Nat),
      c + headLen t ≤ B.length → (B.drop c).take (headLen t) = headBytes t v →
      HeadAt B c t v := by
  intro fuel
  induction fuel with
  | zero =>
    intro t ht
    have := sizeOf_EvmType_pos t
    omega
  | succ n ih =>
    intro t ht v hwf hstat B c hlen hslice
    cases t with
    | u8 =>
      simp only [headLen] at hlen hslice
      simp only [HeadAt]
      exact ⟨hlen, hslice⟩
    | uintW w =>
      simp only [headLen] at hlen hslice
      simp only [HeadAt]
      exact ⟨hlen, hslice⟩
    | u256 =>
      simp only [headLen] at hlen hslice
      simp only [HeadAt]
      exact ⟨hlen, hslice⟩
    | boolT =>
      simp only [headLen] at hlen hslice
      simp only [HeadAt]
      exact ⟨hlen, hslice⟩
    | address =>
      simp only [headLen] at hlen hslice
      simp only [HeadAt]
      exact ⟨hlen, hslice⟩
    | h256 =>
      simp only [headLen] at hlen hslice
      simp only [HeadAt]
      exact ⟨hlen, hslice⟩
    | bytes => simp [has_static_size] at hstat
    | vec te => simp [has_static_size] at hstat
    | boundedVec te bound => simp [has_static_size] at hstat
    | tuple ts =>
      rw [has_static_size] at hstat
      cases v with
      | vtuple vs =>
        simp only [wfB, Bool.and_eq_true, decide_eq_true_eq] at hwf
        simp only [HeadAt, if_pos hstat]
        have hhb : headBytes (.tuple ts) (.vtuple vs) = tupleHeads ts vs := by
          have hsplit := writeTupleSeq_split ts
            (fun t' _ v' w' => writeValue_split t' v' w') vs
          rw [headBytes, writeValue, if_pos hstat, hsplit EvmDataWriter.new]
          simp [EvmDataWriter.new]
        rw [headLen, if_pos hstat] at hlen hslice
        rw [hhb] at hslice
        refine tupleAt_of_slices ts ?_ vs B c hwf.2 hstat hlen hslice
        intro t' ht' v' hwf' hstat' B' c' hlen' hslice'
        refine ih t' ?_ v' hwf' hstat' B' c' hlen' hslice'
        have h4 := sizeOf_lt_of_mem_types ht'
        have h5 : sizeOf (EvmType.tuple ts) = 1 + sizeOf ts := by simp
        omega
      | num x => simp [wfB] at hwf
      | vbool x => simp [wfB] at hwf
      | vaddress x => simp [wfB] at hwf
      | vh256 x => simp [wfB] at hwf
      | vbytes x => simp [wfB] at hwf
      | varray x => simp [wfB] at hwf

theorem StaticHeadAt (t : EvmType) (v : EvmValue) (hwf : wfB t v = true)
    (hstat : has_static_size t = true) (B : List Nat) (c : Nat)
    (hlen : c + headLen t ≤ B.length)
    (hslice : (B.drop c).take (headLen t) = headBytes t v) :
    HeadAt B c t v :=
  StaticHeadAtAux (sizeOf t) t le_rfl v hwf hstat B c hlen hslice

end AbiData

namespace AbiData

theorem drop_drop_comm (B : List Nat) (a b : Nat) :
    (B.drop a).drop b = B.drop (a + b) := by
  rw [List.drop_drop, Nat.add_comm]

theorem payload_ge32 (t : EvmType) (v : EvmValue) (hwf : wfB t v = true)
    (hdyn : has_static_size t = false) : 32 ≤ (payloadOf t v).length := by
  cases t with
  | bytes =>
    cases v with
    | vbytes b => rw [payload_bytes]; simp [u256be_length]
    | num x => simp [wfB] at hwf
    | vbool x => simp [wfB] at hwf
    | vaddress x => simp [wfB] at hwf
    | vh256 x => simp [wfB] at hwf
    | varray x => simp [wfB] at hwf
    | vtuple x => simp [wfB] at hwf
  | vec te =>
    cases v with
    | varray vs =>
      simp only [wfB, Bool.and_eq_true, decide_eq_true_eq] at hwf
      rw [payload_vec te vs hwf.2]
      simp [u256be_length]
    | num x => simp [wfB] at hwf
    | vbool x => simp [wfB] at hwf
    | vaddress x => simp [wfB] at hwf
    | vh256 x => simp [wfB] at hwf
    | vbytes x => simp [wfB] at hwf
    | vtuple x => simp [wfB] at hwf
  | boundedVec te bound =>
    cases v with
    | varray vs =>
      simp only [wfB, Bool.and_eq_true, decide_eq_true_eq] at hwf
      rw [payload_boundedVec te bound vs hwf.2]
      simp [u256be_length]
    | num x => simp [wfB] at hwf
    | vbool x => simp [wfB] at hwf
    | vaddress x => simp [wfB] at hwf
    | vh256 x => simp [wfB] at hwf
    | vbytes x => simp [wfB] at hwf
    | vtuple x => simp [wfB] at hwf
  | tuple ts =>
    cases v with
    | vtuple vs =>
      rw [has_static_size] at hdyn
      simp only [wfB, Bool.and_eq_true, decide_eq_true_eq] at hwf
      rw [payload_tuple_dyn ts vs hwf.2 hdyn]
      rw [List.length_append, slotHeads_length]
      cases ts with
      | nil =>
        have h1 := hwf.1.1
        simp at h1
      | cons t1 rest =>
        cases vs with
        | nil => simp [wfPairs] at hwf
        | cons v1 vrest =>
          have hwf1 : wfB t1 v1 = true := by
            have h2 := hwf.2
            simp only [wfPairs, Bool.and_eq_true] at h2
            exact h2.1
          rw [slotsOfTuple]
          by_cases hs : has_static_size t1
          · rw [slotOfVal, if_pos hs, slotData]
            have h1 : (headBytes t1 v1).length = headLen t1 := headBytes_len _ _ hwf1
            have h2 := headLen_pos t1 v1 hwf1
            rw [List.length_append, h1]
            omega
          · rw [slotOfVal, if_neg hs, slotData]
            rw [List.length_append, List.length_replicate]
            omega
    | num x => simp [wfB] at hwf
    | vbool x => simp [wfB] at hwf
    | vaddress x => simp [wfB] at hwf
    | vh256 x => simp [wfB] at hwf
    | vbytes x => simp [wfB] at hwf
    | varray x => simp [wfB] at hwf
  | u8 => exact absurd hdyn (by simp [has_static_size])
  | uintW w => exact absurd hdyn (by simp [has_static_size])
  | u256 => exact absurd hdyn (by simp [has_static_size])
  | boolT => exact absurd hdyn (by simp [has_static_size])
  | address => exact absurd hdyn (by simp [has_static_size])
  | h256 => exact absurd hdyn (by simp [has_static_size])

end AbiData

namespace AbiData

theorem itemsAt_build (t : EvmType)
    (IHspread : ∀ v, wfB t v = true → has_static_size t = false →
      ∀ ext, (payloadOf t v ++ ext).length < USIZE →
      PayloadBody (payloadOf t v ++ ext) t v) :
    ∀ (vs : List EvmValue) (Body Q ext : List Nat) (c f : Nat),
      wfList t vs = true →
      Body.length < USIZE →
      c ≤ Body.length → f ≤ Body.length →
      Body.drop c = slotHeads f (slotsOfItems t vs) ++ Q →
      Body.drop f = slotTails (slotsOfItems t vs) ++ ext →
      ItemsAt Body c t vs := by
  intro vs
  induction vs with
  | nil =>
    intro Body Q ext c f _ _ _ _ _ _
    simp [ItemsAt]
  | cons v rest ih =>
    intro Body Q ext c f hwfl hB hc hf hsplit htails
    simp only [wfList, Bool.and_eq_true] at hwfl
    have hsl : slotsOfItems t (v :: rest) = slotOfVal t v :: slotsOfItems t rest := rfl
    by_cases hs : has_static_size t
    · have hhb : (headBytes t v).length = headLen t := headBytes_len t v hwfl.1
      rw [hsl, slotOfVal, if_pos hs, slotHeads, List.append_assoc] at hsplit
      rw [hsl, slotOfVal, if_pos hs, slotTails] at htails
      have hlen : (Body.drop c).length = Body.length - c := by simp
      rw [hsplit] at hlen
      rw [List.length_append, hhb] at hlen
      have hcl : c + headLen t ≤ Body.length := by omega
      have hnext : Body.drop (c + headLen t)
          = slotHeads f (slotsOfItems t rest) ++ Q := by
        rw [← drop_drop_comm, hsplit, ← hhb, List.drop_left]
      simp only [ItemsAt]
      constructor
      · refine StaticHeadAt t v hwfl.1 hs Body c hcl ?_
        rw [hsplit, ← hhb, List.take_left]
      · exact ih Body Q ext (c + headLen t) f hwfl.2 hB hcl hf hnext htails
    · have hdyn : has_static_size t = false := by simpa using hs
      have hl32 : headLen t = 32 := headLen_of_dyn t hdyn
      have hP32 : 32 ≤ (payloadOf t v).length := payload_ge32 t v hwfl.1 hdyn
      rw [hsl, slotOfVal, if_neg hs, slotHeads, List.append_assoc] at hsplit
      rw [hsl, slotOfVal, if_neg hs, slotTails, List.append_assoc] at htails
      have hlen : (Body.drop c).length = Body.length - c := by simp
      rw [hsplit] at hlen
      rw [List.length_append, u256be_length] at hlen
      have hdlen : (Body.drop f).length = Body.length - f := by simp
      rw [htails] at hdlen
      rw [List.length_append] at hdlen
      have hcl : c + 32 ≤ Body.length := by omega
      have hfl : f + (payloadOf t v).length ≤ Body.length := by
        rw [List.length_append] at hdlen
        omega
      have hnext : Body.drop (c + 32)
          = slotHeads (f + (payloadOf t v).length) (slotsOfItems t rest) ++ Q := by
        rw [← drop_drop_comm, hsplit, drop32_word]
      have hnextT : Body.drop (f + (payloadOf t v).length)
          = slotTails (slotsOfItems t rest) ++ ext := by
        rw [← drop_drop_comm, htails, List.drop_left]
      simp only [ItemsAt, hl32]
      constructor
      · refine HeadAt_dyn_intro t v Body c hwfl.1 hdyn ⟨f, hcl, ?_, by omega, by omega, ?_⟩
        · rw [hsplit, take32_word]
        · rw [htails]
          refine IHspread v hwfl.1 hdyn (slotTails (slotsOfItems t rest) ++ ext) ?_
          rw [← htails]
          simp only [List.length_drop]
          omega
      · exact ih Body Q ext (c + 32) (f + (payloadOf t v).length) hwfl.2 hB hcl hfl
          hnext hnextT

theorem tupleAt_build : ∀ (ts : List EvmType),
    (∀ t' ∈ ts, ∀ v, wfB t' v = true → has_static_size t' = false →
      ∀ ext, (payloadOf t' v ++ ext).length < USIZE →
      PayloadBody (payloadOf t' v ++ ext) t' v) →
    ∀ (vs : List EvmValue) (Body Q ext : List Nat) (c f : Nat),
      wfPairs ts vs = true →
      Body.length < USIZE →
      c ≤ Body.length → f ≤ Body.length →
      Body.drop c = slotHeads f (slotsOfTuple ts vs) ++ Q →
      Body.drop f = slotTails (slotsOfTuple ts vs) ++ ext →
      TupleAt Body c ts vs := by
  intro ts
  induction ts with
  | nil =>
    intro _ vs Body Q ext c f hwf _ _ _ _ _
    cases vs with
    | nil => simp [TupleAt]
    | cons v vrest => simp [wfPairs] at hwf
  | cons t rest ih =>
    intro IH vs Body Q ext c f hwf hB hc hf hsplit htails
    cases vs with
    | nil => simp [wfPairs] at hwf
    | cons v vrest =>
      simp only [wfPairs, Bool.and_eq_true] at hwf
      have hsl : slotsOfTuple (t :: rest) (v :: vrest)
          = slotOfVal t v :: slotsOfTuple rest vrest := by rw [slotsOfTuple]
      by_cases hs : has_static_size t
      · have hhb : (headBytes t v).length = headLen t := headBytes_len t v hwf.1
        rw [hsl, slotOfVal, if_pos hs, slotHeads, List.append_assoc] at hsplit
        rw [hsl, slotOfVal, if_pos hs, slotTails] at htails
        have hlen : (Body.drop c).length = Body.length - c := by simp
        rw [hsplit] at hlen
        rw [List.length_append, hhb] at hlen
        have hcl : c + headLen t ≤ Body.length := by omega
        have hnext : Body.drop (c + headLen t)
            = slotHeads f (slotsOfTuple rest vrest) ++ Q := by
          rw [← drop_drop_comm, hsplit, ← hhb, List.drop_left]
        simp only [TupleAt]
        constructor
        · refine StaticHeadAt t v hwf.1 hs Body c hcl ?_
          rw [hsplit, ← hhb, List.take_left]
        · exact ih (fun t' ht' => IH t' (List.mem_cons_of_mem t ht'))
            vrest Body Q ext (c + headLen t) f hwf.2 hB hcl hf hnext htails
      · have hdyn : has_static_size t = false := by simpa using hs
        have hl32 : headLen t = 32 := headLen_of_dyn t hdyn
        have hP32 : 32 ≤ (payloadOf t v).length := payload_ge32 t v hwf.1 hdyn
        rw [hsl, slotOfVal, if_neg hs, slotHeads, List.append_assoc] at hsplit
        rw [hsl, slotOfVal, if_neg hs, slotTails, List.append_assoc] at htails
        have hlen : (Body.drop c).length = Body.length - c := by simp
        rw [hsplit] at hlen
        rw [List.length_append, u256be_length] at hlen
        have hdlen : (Body.drop f).length = Body.length - f := by simp
        rw [htails] at hdlen
        rw [List.length_append] at hdlen
        have hcl : c + 32 ≤ Body.length := by omega
        have hfl : f + (payloadOf t v).length ≤ Body.length := by
          rw [List.length_append] at hdlen
          omega
        have hnext : Body.drop (c + 32)
            = slotHeads (f + (payloadOf t v).length) (slotsOfTuple rest vrest) ++ Q := by
          rw [← drop_drop_comm, hsplit, drop32_word]
        have hnextT : Body.drop (f + (payloadOf t v).length)
            = slotTails (slotsOfTuple rest vrest) ++ ext := by
          rw [← drop_drop_comm, htails, List.drop_left]
        simp only [TupleAt, hl32]
        constructor
        · refine HeadAt_dyn_intro t v Body c hwf.1 hdyn
            ⟨f, hcl, ?_, by omega, by omega, ?_⟩
          · rw [hsplit, take32_word]
          · rw [htails]
            refine IH t (List.mem_cons_self t rest) v hwf.1 hdyn
              (slotTails (slotsOfTuple rest vrest) ++ ext) ?_
            rw [← htails]
            simp only [List.length_drop]
            omega
        · exact ih (fun t' ht' => IH t' (List.mem_cons_of_mem t ht'))
            vrest Body Q ext (c + 32) (f + (payloadOf t v).length) hwf.2 hB hcl hfl
            hnext hnextT

end AbiData

namespace AbiData

theorem PayloadSpreadAux : ∀ (fuel : Nat) (t : EvmType), sizeOf t ≤ fuel →
    ∀ v, wfB t v = true → has_static_size t = false →
    ∀ ext, (payloadOf t v ++ ext).length < USIZE →
    PayloadBody (payloadOf t v ++ ext) t v := by
  intro fuel
  induction fuel with
  | zero =>
    intro t ht
    have := sizeOf_EvmType_pos t
    omega
  | succ n ih =>
    intro t ht v hwf hdyn ext hfit
    cases t with
    | bytes =>
      cases v with
      | vbytes b =>
        rw [payload_bytes] at hfit ⊢
        simp only [PayloadBody]
        rw [List.append_assoc]
        have h1 : (32 : Nat) + b.length = (u256be b.length).length + b.length := by
          rw [u256be_length]
        rw [h1, List.take_append, List.append_assoc, List.take_left]
      | num x => simp [wfB] at hwf
      | vbool x => simp [wfB] at hwf
      | vaddress x => simp [wfB] at hwf
      | vh256 x => simp [wfB] at hwf
      | varray x => simp [wfB] at hwf
      | vtuple x => simp [wfB] at hwf
    | vec te =>
      cases v with
      | varray vs =>
        simp only [wfB, Bool.and_eq_true, decide_eq_true_eq] at hwf
        rw [payload_vec te vs hwf.2] at hfit ⊢
        simp only [PayloadBody]
        rw [List.append_assoc]
        have hHlen : (slotHeads (slotData (slotsOfItems te vs)).length
            (slotsOfItems te vs)).length = (slotData (slotsOfItems te vs)).length :=
          slotHeads_length _ _
        refine ⟨by simp [u256be_length], take32_word _ _, ?_⟩
        rw [drop32_word, List.append_assoc]
        refine itemsAt_build te ?_ vs _ (slotTails (slotsOfItems te vs) ++ ext) ext 0
          (slotData (slotsOfItems te vs)).length hwf.2 ?_ (Nat.zero_le _) ?_ ?_ ?_
        · intro v' hwf' hdyn' ext' hfit'
          refine ih te ?_ v' hwf' hdyn' ext' hfit'
          have h5 : sizeOf (EvmType.vec te) = 1 + sizeOf te := by simp
          omega
        · simp only [List.length_append, u256be_length] at hfit
          simp only [List.length_append]
          omega
        · simp only [List.length_append]
          omega
        · rw [List.drop_zero]
        · rw [drop_append_ge _ _ _ (le_of_eq hHlen)]
          rw [hHlen, Nat.sub_self, List.drop_zero]
      | num x => simp [wfB] at hwf
      | vbool x => simp [wfB] at hwf
      | vaddress x => simp [wfB] at hwf
      | vh256 x => simp [wfB] at hwf
      | vbytes x => simp [wfB] at hwf
      | vtuple x => simp [wfB] at hwf
    | boundedVec te bound =>
      cases v with
      | varray vs =>
        simp only [wfB, Bool.and_eq_true, decide_eq_true_eq] at hwf
        rw [payload_boundedVec te bound vs hwf.2] at hfit ⊢
        simp only [PayloadBody]
        rw [List.append_assoc]
        have hHlen : (slotHeads (slotData (slotsOfItems te vs)).length
            (slotsOfItems te vs)).length = (slotData (slotsOfItems te vs)).length :=
          slotHeads_length _ _
        refine ⟨by simp [u256be_length], take32_word _ _, ?_⟩
        rw [drop32_word, List.append_assoc]
        refine itemsAt_build te ?_ vs _ (slotTails (slotsOfItems te vs) ++ ext) ext 0
          (slotData (slotsOfItems te vs)).length hwf.2 ?_ (Nat.zero_le _) ?_ ?_ ?_
        · intro v' hwf' hdyn' ext' hfit'
          refine ih te ?_ v' hwf' hdyn' ext' hfit'
          have h5 : sizeOf (EvmType.boundedVec te bound) = 1 + sizeOf te + sizeOf bound := by
            simp
          omega
        · simp only [List.length_append, u256be_length] at hfit
          simp only [List.length_append]
          omega
        · simp only [List.length_append]
          omega
        · rw [List.drop_zero]
        · rw [drop_append_ge _ _ _ (le_of_eq hHlen)]
          rw [hHlen, Nat.sub_self, List.drop_zero]
      | num x => simp [wfB] at hwf
      | vbool x => simp [wfB] at hwf
      | vaddress x => simp [wfB] at hwf
      | vh256 x => simp [wfB] at hwf
      | vbytes x => simp [wfB] at hwf
      | vtuple x => simp [wfB] at hwf
    | tuple ts =>
      cases v with
      | vtuple vs =>
        rw [has_static_size] at hdyn
        simp only [wfB, Bool.and_eq_true, decide_eq_true_eq] at hwf
        rw [payload_tuple_dyn ts vs hwf.2 hdyn] at hfit ⊢
        simp only [PayloadBody]
        rw [List.append_assoc]
        have hHlen : (slotHeads (slotData (slotsOfTuple ts vs)).length
            (slotsOfTuple ts vs)).length = (slotData (slotsOfTuple ts vs)).length :=
          slotHeads_length _ _
        refine tupleAt_build ts ?_ vs _ (slotTails (slotsOfTuple ts vs) ++ ext) ext 0
          (slotData (slotsOfTuple ts vs)).length hwf.2 ?_ (Nat.zero_le _) ?_ ?_ ?_
        · intro t' ht' v' hwf' hdyn' ext' hfit'
          refine ih t' ?_ v' hwf' hdyn' ext' hfit'
          have h4 := sizeOf_lt_of_mem_types ht'
          have h5 : sizeOf (EvmType.tuple ts) = 1 + sizeOf ts := by simp
          omega
        · simp only [List.length_append] at hfit
          simp only [List.length_append]
          omega
        · simp only [List.length_append]
          omega
        · rw [List.drop_zero]
        · rw [drop_append_ge _ _ _ (le_of_eq hHlen)]
          rw [hHlen, Nat.sub_self, List.drop_zero]
      | num x => simp [wfB] at hwf
      | vbool x => simp [wfB] at hwf
      | vaddress x => simp [wfB] at hwf
      | vh256 x => simp [wfB] at hwf
      | vbytes x => simp [wfB] at hwf
      | varray x => simp [wfB] at hwf
    | u8 => exact absurd hdyn (by simp [has_static_size])
    | uintW w => exact absurd hdyn (by simp [has_static_size])
    | u256 => exact absurd hdyn (by simp [has_static_size])
    | boolT => exact absurd hdyn (by simp [has_static_size])
    | address => exact absurd hdyn (by simp [has_static_size])
    | h256 => exact absurd hdyn (by simp [has_static_size])

theorem PayloadSpread (t : EvmType) (v : EvmValue) (hwf : wfB t v = true)
    (hdyn : has_static_size t = false) (ext : List Nat)
    (hfit : (payloadOf t v ++ ext).length < USIZE) :
    PayloadBody (payloadOf t v ++ ext) t v :=
  PayloadSpreadAux (sizeOf t) t le_rfl v hwf hdyn ext hfit

end AbiData

namespace AbiData

theorem encode_static_eq (t : EvmType) (v : EvmValue) (hwf : wfB t v = true)
    (hs : has_static_size t = true) : encode t v = headBytes t v := by
  rw [encode, writeValue_split]
  rw [EvmDataWriter.build]
  simp only [EvmDataWriter.new, List.nil_append]
  rw [(writeShape_static t v hwf hs).2]
  simp [bake_offsets]

theorem encode_dyn_eq (t : EvmType) (v : EvmValue) (hwf : wfB t v = true)
    (hd : has_static_size t = false) :
    encode t v = u256be 32 ++ payloadOf t v := by
  rw [encode, writeValue_split]
  rw [EvmDataWriter.build]
  obtain ⟨hh, hp⟩ := writeShape_dyn t v hwf hd
  simp only [EvmDataWriter.new, List.nil_append, hh, hp, List.map_cons, List.map_nil]
  simp [bake_offsets, writeWordAt, List.length_replicate]

theorem encode_HeadAt (t : EvmType) (v : EvmValue) (hwf : wfB t v = true)
    (hfit : (encode t v).length + 32 < USIZE) : HeadAt (encode t v) 0 t v := by
  by_cases hs : has_static_size t
  · have hE := encode_static_eq t v hwf hs
    have hlen : (encode t v).length = headLen t := by
      rw [hE]
      exact headBytes_len t v hwf
    refine StaticHeadAt t v hwf hs _ 0 (by omega) ?_
    rw [List.drop_zero, hE]
    exact List.take_of_length_le (le_of_eq (headBytes_len t v hwf))
  · have hdyn : has_static_size t = false := by simpa using hs
    have hE := encode_dyn_eq t v hwf hdyn
    have hP32 := payload_ge32 t v hwf hdyn
    have hElen : (encode t v).length = 32 + (payloadOf t v).length := by
      rw [hE]
      simp [u256be_length]
    refine HeadAt_dyn_intro t v _ 0 hwf hdyn
      ⟨32, by omega, ?_, by omega, by omega, ?_⟩
    · rw [List.drop_zero, hE, take32_word]
    · rw [hE, drop32_word]
      have h1 := PayloadSpread t v hwf hdyn []
        (by simp only [List.append_nil]; omega)
      rwa [List.append_nil] at h1

end AbiData

namespace AbiData

/-- Decoding a writer-produced encoding at cursor 0 returns the original value and
leaves the cursor one head past the start. -/
theorem decode_encode (t : EvmType) (v : EvmValue) (hwf : wfB t v = true)
    (hfit : (encode t v).length + 32 < USIZE) :
    readValue t ⟨encode t v, 0⟩ = (.ok v, ⟨encode t v, headLen t⟩) := by
  have h := ReadOkAux (sizeOf t) t le_rfl v (encode t v) 0 hwf
    (encode_HeadAt t v hwf hfit) hfit
  simpa using h

theorem readValue_boundedVec_overflow (t : EvmType) (N : Nat) (vs : List EvmValue)
    (hwfv : wfB (.vec t) (.varray vs) = true) (hgt : vs.length > N)
    (hfit : (encode (.vec t) (.varray vs)).length + 32 < USIZE) :
    readValue (.boundedVec t N) ⟨encode (.vec t) (.varray vs), 0⟩ =
      (.error "value too large : Array has more than max items allowed",
       ⟨encode (.vec t) (.varray vs), 32⟩) := by
  have hdyn : has_static_size (.vec t) = false := by simp [has_static_size]
  have hE := encode_dyn_eq (.vec t) (.varray vs) hwfv hdyn
  have hP32 := payload_ge32 (.vec t) (.varray vs) hwfv hdyn
  have hElen : (encode (.vec t) (.varray vs)).length
      = 32 + (payloadOf (.vec t) (.varray vs)).length := by
    rw [hE]
    simp [u256be_length]
  simp only [wfB, Bool.and_eq_true, decide_eq_true_eq] at hwfv
  have hpv := payload_vec t vs hwfv.2
  have hrp := read_pointer_ok (encode (.vec t) (.varray vs)) 0 32 (by omega) (by omega)
    (by rw [List.drop_zero, hE]; exact take32_word _ _) (by omega) (by omega)
  have hdrop : (encode (.vec t) (.varray vs)).drop 32
      = payloadOf (.vec t) (.varray vs) := by
    rw [hE, drop32_word]
  have hru : readU256 ⟨(encode (.vec t) (.varray vs)).drop 32, 0⟩
      = (.ok vs.length, ⟨(encode (.vec t) (.varray vs)).drop 32, 32⟩) := by
    rw [readU256_eq]
    simp only [List.drop_zero, Nat.zero_add]
    rw [if_pos (by omega), if_pos (by rw [hdrop]; omega)]
    rw [show ((encode (.vec t) (.varray vs)).drop 32).take 32 = u256be vs.length by
      rw [hdrop, hpv]; exact take32_word _ _]
    rw [beVal_u256be vs.length (lt_u256_of_lt_USIZE hwfv.1)]
  rw [readValue, hrp]
  simp only [hru]
  rw [if_neg (show ¬ vs.length ≥ USIZE by omega), if_pos hgt]

theorem writeValue_boundedVec_bound_free (t : EvmType) (n1 n2 : Nat)
    (v : EvmValue) (w : EvmDataWriter) :
    writeValue (.boundedVec t n1) v w = writeValue (.boundedVec t n2) v w := by
  cases v <;> simp [writeValue]

end AbiData

namespace AbiData

/-- C6: for every bound `N` and element type `T`, encoding then decoding a
`BoundedVec` of length `≤ N` (well-formedness includes `len ≤ N`) yields the
original sequence; decoding a well-formed array encoding whose declared length
exceeds `N` fails with "value too large : Array has more than max items allowed";
and the write path performs no bound check (the bound parameter does not affect
`write` at all). -/
theorem c6_boundedvec_bound :
    (∀ (t : EvmType) (N : Nat) (vs : List EvmValue),
      wfB (.boundedVec t N) (.varray vs) = true →
      (encode (.boundedVec t N) (.varray vs)).length + 32 < USIZE →
      readValue (.boundedVec t N) ⟨encode (.boundedVec t N) (.varray vs), 0⟩ =
        (.ok (.varray vs), ⟨encode (.boundedVec t N) (.varray vs), 32⟩)) ∧
    (∀ (t : EvmType) (N : Nat) (vs : List EvmValue),
      wfB (.vec t) (.varray vs) = true → vs.length > N →
      (encode (.vec t) (.varray vs)).length + 32 < USIZE →
      readValue (.boundedVec t N) ⟨encode (.vec t) (.varray vs), 0⟩ =
        (.error "value too large : Array has more than max items allowed",
         ⟨encode (.vec t) (.varray vs), 32⟩)) ∧
    (∀ (t : EvmType) (n1 n2 : Nat) (v : EvmValue) (w : EvmDataWriter),
      writeValue (.boundedVec t n1) v w = writeValue (.boundedVec t n2) v w) := by
  refine ⟨?_, ?_, ?_⟩
  · intro t N vs hwf hfit
    have h := decode_encode (.boundedVec t N) (.varray vs) hwf hfit
    rwa [show headLen (.boundedVec t N) = 32 by simp [headLen]] at h
  · exact readValue_boundedVec_overflow
  · exact writeValue_boundedVec_bound_free

/-- The C6 round-trip, bound rejection and bound-free write at concrete inputs:
`BoundedVec<U256, 2>` holding `[5]` round-trips; the two-element array `[5, 6]`
read at bound 1 is rejected with the max-items error; and writing `[5]` at bounds
1 and 7 produces identical writers. -/
theorem c6_boundedvec_bound_witness :
    readValue (.boundedVec .u256 2) ⟨encode (.boundedVec .u256 2) (.varray [.num 5]), 0⟩ =
      (.ok (.varray [.num 5]), ⟨encode (.boundedVec .u256 2) (.varray [.num 5]), 32⟩) ∧
    readValue (.boundedVec .u256 1) ⟨encode (.vec .u256) (.varray [.num 5, .num 6]), 0⟩ =
      (.error "value too large : Array has more than max items allowed",
       ⟨encode (.vec .u256) (.varray [.num 5, .num 6]), 32⟩) ∧
    writeValue (.boundedVec .u256 1) (.varray [.num 5]) EvmDataWriter.new =
      writeValue (.boundedVec .u256 7) (.varray [.num 5]) EvmDataWriter.new := by
  refine ⟨?_, ?_, ?_⟩
  · refine c6_boundedvec_bound.1 .u256 2 [.num 5] (by simp [wfB, wfList, USIZE]) ?_
    have h : encode (.boundedVec .u256 2) (.varray [.num 5])
        = u256be 32 ++ u256be 1 ++ u256be 5 := by
      simp [encode, writeValue, writeItems, write_raw_bytes, write_pointer,
        EvmDataWriter.new, EvmDataWriter.build, bake_offsets, writeWordAt,
        u256be, beBytes]
    rw [h]
    simp [u256be_length, USIZE]
  · refine c6_boundedvec_bound.2.1 .u256 1 [.num 5, .num 6]
      (by simp [wfB, wfList, USIZE]) (by simp) ?_
    have h : encode (.vec .u256) (.varray [.num 5, .num 6])
        = u256be 32 ++ u256be 2 ++ u256be 5 ++ u256be 6 := by
      simp [encode, writeValue, writeItems, write_raw_bytes, write_pointer,
        EvmDataWriter.new, EvmDataWriter.build, bake_offsets, writeWordAt,
        u256be, beBytes]
    rw [h]
    simp [u256be_length, USIZE]
  · exact c6_boundedvec_bound.2.2 .u256 1 7 (.varray [.num 5]) EvmDataWriter.new

end AbiData
